import Mathlib

/-!
Verification development for the combiner-based statistics aggregation engine of the
data-validation repository.  The definitions below are a shallow embedding of the Python
sources under `src/tensorflow_data_validation/`:

* `statistics/generators/top_k_uniques_combiner_stats_generator.py`
  (`TopKUniquesCombinerStatsGenerator`, `_WeightedCounter`, `_make_feature_stats_proto`),
* `statistics/generators/top_k_uniques_stats_generator.py`
  (`make_feature_stats_proto_with_topk_stats`, `_INVALID_STRING`),
* `statistics/stats_impl.py`
  (`_CombinerStatsGeneratorsCombineFn`, `CombinerFeatureStatsWrapperGenerator`,
  `_update_example_and_missing_count`).

Python dictionaries are modelled as insertion-ordered association lists (a new key is
appended at the end, an existing key is updated in place), `collections.Counter` /
`_WeightedCounter` as association lists from values to rational counts, and Python
strings as lists of characters compared code-point-lexicographically, which is Python's
string ordering.  Weighted (floating-point) counts are idealised as rationals.
-/

namespace TFDV

/-- `types.FeaturePath`: ordered sequence of string steps identifying a column; equality
is by step sequence. -/
structure FeaturePath where
  steps : List String
deriving DecidableEq

/-- A Python value held in a value-count accumulator: a bytes value, a text (unicode)
string, or a categorical integer.  The payload of `vBytes` is its UTF-8 decoding when the
bytes are valid UTF-8 and `none` otherwise; the raw bytes themselves are irrelevant to
all claims here, only their decodability and decoded text are (the decoder
`stats_util.maybe_get_utf8` is repository code that is not under `src/`, so bytes values
are classified by the decoder's outcome, modelled from the spec). -/
inductive PyValue where
  | vBytes (decoded : Option (List Char))
  | vText (s : List Char)
  | vInt (n : Int)
deriving DecidableEq

/-- Injective key used to order `PyValue`s: constructor rank, then the textual payload,
then the integer payload.  On homogeneous lists (all text, or all integers) this order
coincides with Python's ordering of the corresponding values, which is all the sorting
code ever relies on. -/
def PyValue.key : PyValue → Lex (Nat × Lex (List Char × Int))
  | .vBytes none => toLex (0, toLex ([], 0))
  | .vBytes (some s) => toLex (1, toLex (s, 0))
  | .vText s => toLex (2, toLex (s, 0))
  | .vInt n => toLex (3, toLex ([], n))

theorem PyValue.key_injective : Function.Injective PyValue.key := by
  intro a b h
  cases a with
  | vBytes o₁ =>
    cases b with
    | vBytes o₂ => cases o₁ <;> cases o₂ <;> simp_all [PyValue.key]
    | vText s₂ => cases o₁ <;> simp_all [PyValue.key]
    | vInt n₂ => cases o₁ <;> simp_all [PyValue.key]
  | vText s₁ =>
    cases b with
    | vBytes o₂ => cases o₂ <;> simp_all [PyValue.key]
    | vText s₂ => simp_all [PyValue.key]
    | vInt n₂ => simp_all [PyValue.key]
  | vInt n₁ =>
    cases b with
    | vBytes o₂ => cases o₂ <;> simp_all [PyValue.key]
    | vText s₂ => simp_all [PyValue.key]
    | vInt n₂ => simp_all [PyValue.key]

instance : LinearOrder PyValue := LinearOrder.lift' PyValue.key PyValue.key_injective

/-! ### Counters

`collections.Counter` and `_WeightedCounter` (a `defaultdict(int)`): a mapping from
feature values to counts, with insertion-ordered keys.  `c[v] += n` on a missing key
appends `(v, n)` at the end; on a present key it updates the count in place. -/

/-- A value-to-count mapping (`collections.Counter` / `_WeightedCounter`). -/
abbrev Counter := List (PyValue × ℚ)

/-- `c[v]` with default 0 (both counter classes default missing keys to zero). -/
def cGet : Counter → PyValue → ℚ
  | [], _ => 0
  | (k, m) :: rest, v => if k = v then m else cGet rest v

/-- `c[v] += n`: update the first entry for `v` in place, or append a new entry. -/
def cIncr : Counter → PyValue → ℚ → Counter
  | [], v, n => [(v, n)]
  | (k, m) :: rest, v, n => if k = v then (k, m + n) :: rest else (k, m) :: cIncr rest v n

/-- Fold a list of (value, amount) pairs into a counter by repeated `c[v] += n`.  This is
the common body of `collections.Counter.update`, `_WeightedCounter.update` (both iterate
the other counter's items) and `_WeightedCounter.weighted_update` (which iterates
zipped values and weights). -/
def counterFold (c : Counter) (pairs : List (PyValue × ℚ)) : Counter :=
  pairs.foldl (fun acc kv => cIncr acc kv.1 kv.2) c

/-- `Counter.update(other)` / `_WeightedCounter.update(other)`: elementwise addition. -/
def cUpdate (c other : Counter) : Counter := counterFold c other

/-- `_WeightedCounter.weighted_update(values, weights)` on a fresh counter, and also the
counter assembled from `arrow_util.ValueCounts` when every pair carries amount 1. -/
def cOfPairs (pairs : List (PyValue × ℚ)) : Counter := counterFold [] pairs

/-- The counter of occurrence counts of a list of values, keys in first-occurrence
order (`arrow_util.ValueCounts` followed by `unweighted_counts[value] = count`). -/
def counterOfList (vals : List PyValue) : Counter := cOfPairs (vals.map fun v => (v, 1))

/-- The keys of a counter, in insertion order. -/
def cKeys (c : Counter) : List PyValue := c.map Prod.fst

theorem cGet_eq_zero_of_not_mem {c : Counter} {v : PyValue} (h : v ∉ cKeys c) :
    cGet c v = 0 := by
  induction c with
  | nil => rfl
  | cons kv rest ih =>
    obtain ⟨k, m⟩ := kv
    simp only [cKeys, List.map_cons, List.mem_cons, not_or] at h
    simp only [cGet]
    rw [if_neg fun hk => h.1 hk.symm]
    exact ih (by simpa [cKeys] using h.2)

theorem cGet_cIncr (c : Counter) (v : PyValue) (n : ℚ) (w : PyValue) :
    cGet (cIncr c v n) w = cGet c w + if v = w then n else 0 := by
  induction c with
  | nil =>
    simp only [cIncr, cGet]
    by_cases h : v = w <;> simp [h]
  | cons kv rest ih =>
    obtain ⟨k, m⟩ := kv
    simp only [cIncr]
    by_cases hkv : k = v
    · subst hkv
      simp only [if_pos rfl, cGet]
      by_cases hkw : k = w
      · subst hkw; simp [add_assoc]
      · simp [hkw]
    · rw [if_neg hkv]
      simp only [cGet]
      by_cases hkw : k = w
      · subst hkw
        have : ¬ v = k := fun h => hkv h.symm
        simp [this]
      · simp [hkw, ih]

theorem cIncr_cons_self (k : PyValue) (b : ℚ) (rest : Counter) (n : ℚ) :
    cIncr ((k, b) :: rest) k n = (k, b + n) :: rest := by
  simp [cIncr]

theorem cIncr_cons_ne {k v : PyValue} (h : ¬ k = v) (b : ℚ) (rest : Counter) (n : ℚ) :
    cIncr ((k, b) :: rest) v n = (k, b) :: cIncr rest v n := by
  simp [cIncr, h]

theorem mem_cKeys_cIncr {c : Counter} {v : PyValue} {n : ℚ} {w : PyValue} :
    w ∈ cKeys (cIncr c v n) ↔ w ∈ cKeys c ∨ w = v := by
  induction c with
  | nil => simp [cIncr, cKeys]
  | cons kv rest ih =>
    obtain ⟨k, m⟩ := kv
    by_cases hkv : k = v
    · subst hkv
      rw [cIncr_cons_self]
      simp only [cKeys, List.map_cons, List.mem_cons]
      tauto
    · rw [cIncr_cons_ne hkv]
      simp only [cKeys, List.map_cons, List.mem_cons] at ih ⊢
      rw [ih]
      tauto

theorem cKeys_nodup_cIncr {c : Counter} {v : PyValue} {n : ℚ}
    (h : (cKeys c).Nodup) : (cKeys (cIncr c v n)).Nodup := by
  induction c with
  | nil => simp [cIncr, cKeys]
  | cons kv rest ih =>
    obtain ⟨k, m⟩ := kv
    simp only [cKeys, List.map_cons, List.nodup_cons] at h
    by_cases hkv : k = v
    · subst hkv
      rw [cIncr_cons_self]
      simp only [cKeys, List.map_cons, List.nodup_cons]
      exact ⟨h.1, h.2⟩
    · rw [cIncr_cons_ne hkv]
      simp only [cKeys, List.map_cons, List.nodup_cons]
      refine ⟨fun hmem => ?_, ih h.2⟩
      rcases (mem_cKeys_cIncr (c := rest)).mp hmem with h' | h'
      · exact h.1 h'
      · exact hkv h'

theorem cIncr_cIncr_same (c : Counter) (v : PyValue) (m n : ℚ) :
    cIncr (cIncr c v m) v n = cIncr c v (m + n) := by
  induction c with
  | nil => simp [cIncr]
  | cons kv rest ih =>
    obtain ⟨k, p⟩ := kv
    by_cases hkv : k = v
    · subst hkv
      rw [cIncr_cons_self, cIncr_cons_self, cIncr_cons_self, add_assoc]
    · rw [cIncr_cons_ne hkv, cIncr_cons_ne hkv, cIncr_cons_ne hkv, ih]

/-- Two increments on distinct slots commute, provided `v` already has a slot (so that no
slot-creation order can differ). -/
theorem cIncr_comm_of_mem {c : Counter} {v : PyValue} (hv : v ∈ cKeys c)
    (k : PyValue) (m n : ℚ) :
    cIncr (cIncr c k m) v n = cIncr (cIncr c v n) k m := by
  induction c with
  | nil => simp [cKeys] at hv
  | cons kv rest ih =>
    obtain ⟨a, b⟩ := kv
    simp only [cKeys, List.map_cons, List.mem_cons] at hv
    by_cases hkv : k = v
    · subst hkv
      rw [cIncr_cIncr_same, cIncr_cIncr_same, add_comm]
    · by_cases hak : a = k
      · subst hak
        have hav : ¬ a = v := hkv
        rw [cIncr_cons_self, cIncr_cons_ne hav, cIncr_cons_ne hav, cIncr_cons_self]
      · by_cases hav : a = v
        · subst hav
          rw [cIncr_cons_ne hak, cIncr_cons_self, cIncr_cons_self, cIncr_cons_ne hak]
        · have hv' : v ∈ cKeys rest := by
            rcases hv with h | h
            · exact absurd h.symm hav
            · exact h
          rw [cIncr_cons_ne hak, cIncr_cons_ne hav, cIncr_cons_ne hav,
            cIncr_cons_ne hak, ih hv']

/-- The total amount that a list of (value, amount) pairs contributes to value `v`. -/
def pairsMass (ps : List (PyValue × ℚ)) (v : PyValue) : ℚ :=
  (ps.map fun kv => if kv.1 = v then kv.2 else 0).sum

theorem pairsMass_nil (v : PyValue) : pairsMass [] v = 0 := rfl

theorem pairsMass_cons (p : PyValue × ℚ) (ps : List (PyValue × ℚ)) (v : PyValue) :
    pairsMass (p :: ps) v = (if p.1 = v then p.2 else 0) + pairsMass ps v := by
  simp [pairsMass]

theorem pairsMass_append (ps qs : List (PyValue × ℚ)) (v : PyValue) :
    pairsMass (ps ++ qs) v = pairsMass ps v + pairsMass qs v := by
  simp [pairsMass]

theorem counterFold_nil (c : Counter) : counterFold c [] = c := rfl

theorem counterFold_cons (c : Counter) (p : PyValue × ℚ) (ps : List (PyValue × ℚ)) :
    counterFold c (p :: ps) = counterFold (cIncr c p.1 p.2) ps := rfl

theorem counterFold_append (c : Counter) (ps qs : List (PyValue × ℚ)) :
    counterFold c (ps ++ qs) = counterFold (counterFold c ps) qs := by
  simp [counterFold, List.foldl_append]

theorem cGet_counterFold (c : Counter) (ps : List (PyValue × ℚ)) (v : PyValue) :
    cGet (counterFold c ps) v = cGet c v + pairsMass ps v := by
  induction ps generalizing c with
  | nil => simp [counterFold_nil, pairsMass_nil]
  | cons p ps ih =>
    rw [counterFold_cons, ih, cGet_cIncr, pairsMass_cons]
    ring

theorem pairsMass_eq_zero_of_not_mem {o : Counter} {v : PyValue} (h : v ∉ cKeys o) :
    pairsMass o v = 0 := by
  induction o with
  | nil => rfl
  | cons kv rest ih =>
    obtain ⟨k, m⟩ := kv
    simp only [cKeys, List.map_cons, List.mem_cons, not_or] at h
    rw [pairsMass_cons, if_neg fun hk => h.1 hk.symm, ih (by simpa [cKeys] using h.2)]
    ring

/-- Viewed as a counter with no duplicate keys, a pair list's mass at `v` is its count
at `v`. -/
theorem pairsMass_eq_cGet {o : Counter} (h : (cKeys o).Nodup) (v : PyValue) :
    pairsMass o v = cGet o v := by
  induction o with
  | nil => rfl
  | cons kv rest ih =>
    obtain ⟨k, m⟩ := kv
    simp only [cKeys, List.map_cons, List.nodup_cons] at h
    rw [pairsMass_cons, cGet]
    by_cases hkv : k = v
    · subst hkv
      rw [if_pos rfl, if_pos rfl,
        pairsMass_eq_zero_of_not_mem (by simpa [cKeys] using h.1)]
      ring
    · rw [if_neg hkv, if_neg hkv, ih h.2]
      ring

/-- `Counter.update` adds counts pointwise (for a well-formed other counter). -/
theorem cGet_cUpdate (c : Counter) {o : Counter} (h : (cKeys o).Nodup) (v : PyValue) :
    cGet (cUpdate c o) v = cGet c v + cGet o v := by
  rw [cUpdate, cGet_counterFold, pairsMass_eq_cGet h]

theorem mem_cKeys_counterFold {c : Counter} {ps : List (PyValue × ℚ)} {w : PyValue} :
    w ∈ cKeys (counterFold c ps) ↔ w ∈ cKeys c ∨ w ∈ ps.map Prod.fst := by
  induction ps generalizing c with
  | nil => simp [counterFold_nil]
  | cons p ps ih =>
    rw [counterFold_cons, ih]
    simp only [List.map_cons, List.mem_cons]
    rw [show (w ∈ cKeys (cIncr c p.1 p.2)) ↔ _ from mem_cKeys_cIncr]
    tauto

theorem cKeys_nodup_counterFold {c : Counter} (ps : List (PyValue × ℚ))
    (h : (cKeys c).Nodup) : (cKeys (counterFold c ps)).Nodup := by
  induction ps generalizing c with
  | nil => simpa [counterFold_nil] using h
  | cons p ps ih => exact counterFold_cons _ _ _ ▸ ih (cKeys_nodup_cIncr h)

theorem cIncr_ne_nil (c : Counter) (v : PyValue) (n : ℚ) : cIncr c v n ≠ [] := by
  cases c with
  | nil => simp [cIncr]
  | cons kv rest =>
    obtain ⟨k, m⟩ := kv
    by_cases hkv : k = v
    · subst hkv; rw [cIncr_cons_self]; simp
    · rw [cIncr_cons_ne hkv]; simp

theorem counterFold_eq_nil_iff (c : Counter) (ps : List (PyValue × ℚ)) :
    counterFold c ps = [] ↔ c = [] ∧ ps = [] := by
  induction ps generalizing c with
  | nil => simp [counterFold_nil]
  | cons p ps ih =>
    rw [counterFold_cons, ih]
    simp [cIncr_ne_nil]

/-- Bumping a slot that already exists commutes with folding further pairs in. -/
theorem cIncr_counterFold_of_mem {c : Counter} {v : PyValue} (hv : v ∈ cKeys c)
    (ps : List (PyValue × ℚ)) (n : ℚ) :
    cIncr (counterFold c ps) v n = counterFold (cIncr c v n) ps := by
  induction ps generalizing c with
  | nil => simp [counterFold_nil]
  | cons p ps ih =>
    rw [counterFold_cons, counterFold_cons,
      ih (mem_cKeys_cIncr.mpr (Or.inl hv)), cIncr_comm_of_mem hv]

/-- Folding into an incremented counter is folding then incrementing. -/
theorem counterFold_cIncr (c o : Counter) (v : PyValue) (n : ℚ) :
    counterFold c (cIncr o v n) = cIncr (counterFold c o) v n := by
  induction o generalizing c with
  | nil => simp [cIncr, counterFold_cons, counterFold_nil]
  | cons kv rest ih =>
    obtain ⟨k, m⟩ := kv
    by_cases hkv : k = v
    · subst hkv
      rw [cIncr_cons_self, counterFold_cons, counterFold_cons]
      rw [cIncr_counterFold_of_mem (mem_cKeys_cIncr.mpr (Or.inr rfl)) rest n]
      rw [cIncr_cIncr_same]
    · rw [cIncr_cons_ne hkv, counterFold_cons, counterFold_cons, ih]

/-- Key fold-fusion fact: folding a fold is folding the concatenation. -/
theorem counterFold_counterFold (c o : Counter) (ps : List (PyValue × ℚ)) :
    counterFold c (counterFold o ps) = counterFold (counterFold c o) ps := by
  induction ps generalizing o with
  | nil => simp [counterFold_nil]
  | cons p ps ih =>
    rw [counterFold_cons, counterFold_cons, ih, counterFold_cIncr]

/-- Updating by a freshly built counter equals folding the raw pairs directly; hence
building a counter from split inputs and merging agrees with building it in one go. -/
theorem cUpdate_cOfPairs (c : Counter) (ps : List (PyValue × ℚ)) :
    cUpdate c (cOfPairs ps) = counterFold c ps := by
  rw [cUpdate, cOfPairs, counterFold_counterFold, counterFold_nil]

theorem cOfPairs_append (ps qs : List (PyValue × ℚ)) :
    cUpdate (cOfPairs ps) (cOfPairs qs) = cOfPairs (ps ++ qs) := by
  rw [cUpdate_cOfPairs, cOfPairs, cOfPairs, counterFold_append]

theorem counterOfList_append (l₁ l₂ : List PyValue) :
    cUpdate (counterOfList l₁) (counterOfList l₂) = counterOfList (l₁ ++ l₂) := by
  rw [counterOfList, counterOfList, counterOfList, cOfPairs_append, List.map_append]

/-! ### Insertion-ordered dictionaries

Python `dict` semantics: assignment to a fresh key appends, assignment to a present key
updates in place; lookup finds the (unique, but here: first) entry for a key. -/

/-- `d[k]` as an option (`k in d` test plus `d[k]`). -/
def alookup {κ β : Type} [DecidableEq κ] : List (κ × β) → κ → Option β
  | [], _ => none
  | (k, x) :: rest, key => if k = key then some x else alookup rest key

/-- `d[k] = y` for a key already present: update the first entry in place. -/
def aset {κ β : Type} [DecidableEq κ] : List (κ × β) → κ → β → List (κ × β)
  | [], _, _ => []
  | (k, x) :: rest, key, y => if k = key then (k, y) :: rest else (k, x) :: aset rest key y

theorem alookup_aset {κ β : Type} [DecidableEq κ] (d : List (κ × β)) (k : κ) (y : β)
    (p : κ) : alookup (aset d k y) p =
      if k = p ∧ (alookup d k).isSome then some y else alookup d p := by
  induction d with
  | nil => simp [aset, alookup]
  | cons e rest ih =>
    obtain ⟨a, x⟩ := e
    by_cases hak : a = k
    · subst hak
      have h1 : aset ((a, x) :: rest) a y = (a, y) :: rest := by simp [aset]
      have h2 : alookup ((a, x) :: rest) a = some x := by simp [alookup]
      rw [h1, h2]
      simp only [Option.isSome_some, and_true]
      by_cases hap : a = p
      · simp [alookup, hap]
      · simp [alookup, hap]
    · have h1 : aset ((a, x) :: rest) k y = (a, x) :: aset rest k y := by
        simp [aset, hak]
      have h2 : alookup ((a, x) :: rest) k = alookup rest k := by
        simp [alookup, hak]
      rw [h1, h2]
      by_cases hap : a = p
      · subst hap
        have hka : ¬ k = a := fun h => hak h.symm
        simp [alookup, hka]
      · have l1 : alookup ((a, x) :: aset rest k y) p = alookup (aset rest k y) p := by
          simp [alookup, hap]
        have l2 : alookup ((a, x) :: rest) p = alookup rest p := by
          simp [alookup, hap]
        rw [l1, l2, ih]

theorem alookup_append_right {κ β : Type} [DecidableEq κ] (d : List (κ × β))
    (e : κ × β) (p : κ) (h : alookup d p = none) :
    alookup (d ++ [e]) p = if e.1 = p then some e.2 else none := by
  induction d with
  | nil => simp [alookup]
  | cons f rest ih =>
    obtain ⟨a, x⟩ := f
    simp only [alookup] at h
    by_cases hap : a = p
    · simp [hap] at h
    · simp only [List.cons_append, alookup, if_neg hap]
      exact ih (by simpa [if_neg hap] using h)

theorem alookup_append_left {κ β : Type} [DecidableEq κ] (d : List (κ × β))
    (e : κ × β) (p : κ) (h : e.1 ≠ p) :
    alookup (d ++ [e]) p = alookup d p := by
  induction d with
  | nil => simp [alookup, h]
  | cons f rest ih =>
    obtain ⟨a, x⟩ := f
    by_cases hap : a = p
    · simp [alookup, hap]
    · simp only [List.cons_append, alookup, if_neg hap]
      exact ih

/-! ### The top-k/uniques combiner generator

`TopKUniquesCombinerStatsGenerator` from
`statistics/generators/top_k_uniques_combiner_stats_generator.py`, together with the
proto-assembly helpers it calls in `top_k_uniques_stats_generator.py`. -/

/-- The `_ValueCounts` namedtuple: unweighted and weighted counts for one feature. -/
structure ValueCounts where
  unweighted_counts : Counter
  weighted_counts : Counter
deriving DecidableEq

/-- One column of the in-memory Arrow table, as the generator reads it: its name, whether
its Arrow type is string-like (`stats_util.get_feature_type_from_arrow_type` yielding
`STRING`), and one cell per row, each either null or a list of values. -/
structure TopKColumn where
  name : String
  isStringType : Bool
  cells : List (Option (List PyValue))
deriving DecidableEq

/-- A row batch for the top-k generator.  The value columns are listed explicitly; the
configured weight feature's column is represented by `weights` — the flattened weight
array, row-aligned (the source flattens the weight column with
`arrow_util.FlattenListArray` and indexes it by each value's parent row index, which for
the standard one-weight-per-row layout yields exactly the row's weight).  `weights =
none` models the absence of a configured weight feature. -/
structure TopKBatch where
  columns : List TopKColumn
  weights : Option (List ℚ)
deriving DecidableEq

/-- Constructor arguments of `TopKUniquesCombinerStatsGenerator` that the accumulator
operations consult. -/
structure TopKConfig where
  categoricalFeatures : List FeaturePath
  numTopValues : Nat
  frequencyThreshold : ℚ
  weightedFrequencyThreshold : ℚ
  numRankHistogramBuckets : Nat

/-- The values of one cell; a null cell flattens to nothing. -/
def cellValues (cell : Option (List PyValue)) : List PyValue := cell.getD []

/-- `arrow_util.FlattenListArray` on a value column: all values, in row order. -/
def flattenColumn (col : TopKColumn) : List PyValue :=
  (col.cells.map cellValues).flatten

/-- Values zipped with their parent row's weight
(`flattened_weights[GetFlattenedArrayParentIndices(value_array)]`). -/
def columnWeightPairs (col : TopKColumn) (ws : List ℚ) : List (PyValue × ℚ) :=
  (List.zipWith (fun cell w => (cellValues cell).map fun v => (v, w)) col.cells ws).flatten

/-- The accumulator of `TopKUniquesCombinerStatsGenerator`: a dict from feature path to
`_ValueCounts`. -/
abbrev TopKAccumulator := List (FeaturePath × ValueCounts)

namespace TopKUniques

/-- `create_accumulator`. -/
def create_accumulator : TopKAccumulator := []

/-- Whether a column gets top-k stats: a categorical feature or a string-typed column. -/
def columnEligible (cfg : TopKConfig) (col : TopKColumn) : Prop :=
  FeaturePath.mk [col.name] ∈ cfg.categoricalFeatures ∨ col.isStringType = true

instance (cfg : TopKConfig) (col : TopKColumn) : Decidable (columnEligible cfg col) :=
  inferInstanceAs (Decidable (_ ∨ _))

/-- The `_ValueCounts` computed by `add_input` for one column of one batch: unweighted
occurrence counts of the flattened values, and (when a weight array is present) the
weighted counts built by `weighted_update` over values paired with their parent row's
weight. -/
def columnValueCounts (ws : List ℚ) (col : TopKColumn) : ValueCounts :=
  ⟨counterOfList (flattenColumn col),
   if ws.isEmpty then [] else cOfPairs (columnWeightPairs col ws)⟩

/-- The body of `add_input`'s per-column loop. -/
def addColumn (cfg : TopKConfig) (ws : List ℚ) (acc : TopKAccumulator)
    (col : TopKColumn) : TopKAccumulator :=
  if columnEligible cfg col then
    match alookup acc (FeaturePath.mk [col.name]) with
    | none => acc ++ [(FeaturePath.mk [col.name], columnValueCounts ws col)]
    | some old =>
        aset acc (FeaturePath.mk [col.name])
          ⟨cUpdate old.unweighted_counts (columnValueCounts ws col).unweighted_counts,
           cUpdate old.weighted_counts (columnValueCounts ws col).weighted_counts⟩
  else acc

/-- `TopKUniquesCombinerStatsGenerator.add_input`.  (The weight column itself is skipped
by the source loop; here it is represented separately by `b.weights`, so only the value
columns are iterated.) -/
def add_input (cfg : TopKConfig) (acc : TopKAccumulator) (b : TopKBatch) :
    TopKAccumulator :=
  b.columns.foldl (addColumn cfg (b.weights.getD [])) acc

/-- How `merge_accumulators` combines an incoming `_ValueCounts` into the one already
held for the same feature path: the unweighted counts are updated unconditionally, the
weighted counts only when the held weighted counter is non-empty (`if
result[feature_path].weighted_counts:`). -/
def mergeValueCounts (old new : ValueCounts) : ValueCounts :=
  ⟨cUpdate old.unweighted_counts new.unweighted_counts,
   if old.weighted_counts.isEmpty then old.weighted_counts
   else cUpdate old.weighted_counts new.weighted_counts⟩

/-- The body of `merge_accumulators`'s inner loop, for one `(feature_path, value_counts)`
item of one incoming accumulator: adopt it if the path is new, otherwise combine. -/
def mergeItem (result : TopKAccumulator) (item : FeaturePath × ValueCounts) :
    TopKAccumulator :=
  match alookup result item.1 with
  | none => result ++ [item]
  | some old => aset result item.1 (mergeValueCounts old item.2)

/-- `TopKUniquesCombinerStatsGenerator.merge_accumulators`. -/
def merge_accumulators (accumulators : List TopKAccumulator) : TopKAccumulator :=
  accumulators.foldl (fun result acc => acc.foldl mergeItem result) []

end TopKUniques

/-! ### Top-k proto assembly (`top_k_uniques_stats_generator.py`) -/

/-- `_INVALID_STRING`: the sentinel label for undecodable bytes values. -/
def invalidString : List Char := "__BYTES_VALUE__".data

/-- Modelled from the spec: `stats_util.maybe_get_utf8` (repository code not under
`src/`) returns the decoded string when the bytes are valid UTF-8 and `None` otherwise;
bytes values in this embedding carry that outcome directly. -/
def maybe_get_utf8 (decoded : Option (List Char)) : Option (List Char) := decoded

/-- The label a value-count entry receives in the output: bytes are decoded or replaced
by the sentinel (the source also logs a warning, which has no effect on the output);
text is kept; any other value is rendered with `str()`. -/
def topkEntryLabel : PyValue → List Char
  | .vBytes b =>
    match maybe_get_utf8 b with
    | some s => s
    | none => invalidString
  | .vText s => s
  | .vInt n => (toString n).data

/-- Sort key of `top_k_value_count_list.sort(key=lambda counts: (counts[1], counts[0]),
reverse=True)`: the (count, value) pair, compared lexicographically. -/
def valueCountSortKey (p : PyValue × ℚ) : Lex (ℚ × PyValue) := toLex (p.2, p.1)

/-- `a` precedes `b` in the descending sort: `a`'s key is at least `b`'s. -/
def valueCountGE (a b : PyValue × ℚ) : Prop := valueCountSortKey b ≤ valueCountSortKey a

instance : DecidableRel valueCountGE := fun a b =>
  inferInstanceAs (Decidable (valueCountSortKey b ≤ valueCountSortKey a))

instance : IsTotal (PyValue × ℚ) valueCountGE :=
  ⟨fun a b => (le_total (valueCountSortKey a) (valueCountSortKey b)).symm⟩

instance : IsTrans (PyValue × ℚ) valueCountGE :=
  ⟨fun _ _ _ hab hbc => le_trans hbc hab⟩

theorem valueCountSortKey_injective : Function.Injective valueCountSortKey := by
  intro a b h
  have h' : (a.2, a.1) = (b.2, b.1) := h
  obtain ⟨h2, h1⟩ := Prod.mk.injEq .. ▸ h'
  exact Prod.ext h1 h2

instance : IsAntisymm (PyValue × ℚ) valueCountGE :=
  ⟨fun a b hab hba => valueCountSortKey_injective (le_antisymm hba hab)⟩

/-- The sort performed by `make_feature_stats_proto_with_topk_stats`: stable sort,
descending by (count, value).  The key order is total and antisymmetric on pairs, so
every sorting algorithm produces the same (unique) sorted permutation that Python's
stable sort does; insertion sort is used as the model. -/
def sortValueCountList (l : List (PyValue × ℚ)) : List (PyValue × ℚ) :=
  List.insertionSort valueCountGE l

/-- One bucket of a rank histogram. -/
structure RankHistogramBucket where
  low_rank : Nat
  high_rank : Nat
  sample_count : ℚ
  label : List Char
deriving DecidableEq

/-- One entry of a top-values list. -/
structure TopValueFreq where
  value : List Char
  frequency : ℚ
deriving DecidableEq

/-- The weighted top-k block (`weighted_string_stats`). -/
structure WeightedStringStatsTopK where
  top_values : List TopValueFreq
  rank_histogram : List RankHistogramBucket
deriving DecidableEq

/-- The `string_stats` fields populated by the top-k/uniques code paths. -/
structure StringStatsTopK where
  top_values : List TopValueFreq
  rank_histogram : List RankHistogramBucket
  unique : Nat
  weighted_string_stats : Option WeightedStringStatsTopK
deriving DecidableEq

/-- The `FeatureNameStatistics` fields populated by the top-k/uniques code paths. -/
structure FeatureNameStatisticsTopK where
  path : FeaturePath
  isIntType : Bool
  string_stats : StringStatsTopK
deriving DecidableEq

/-- The output-assembly loop of `make_feature_stats_proto_with_topk_stats`: walk the
sorted list with index `i`, stop at the first entry below the frequency threshold,
emit a top-value entry while `i < num_top_values` and a rank-histogram bucket while
`i < num_rank_histogram_buckets`. -/
def topkAssemble (num_top_values : Nat) (frequency_threshold : ℚ)
    (num_rank_histogram_buckets : Nat) :
    Nat → List (PyValue × ℚ) → List TopValueFreq × List RankHistogramBucket
  | _, [] => ([], [])
  | i, (v, c) :: rest =>
    if c < frequency_threshold then ([], [])
    else
      let label := topkEntryLabel v
      let tb := topkAssemble num_top_values frequency_threshold
        num_rank_histogram_buckets (i + 1) rest
      (if i < num_top_values then ⟨label, c⟩ :: tb.1 else tb.1,
       if i < num_rank_histogram_buckets then ⟨i, i, c, label⟩ :: tb.2 else tb.2)

/-- `make_feature_stats_proto_with_topk_stats`. -/
def make_feature_stats_proto_with_topk_stats (feature_path : FeaturePath)
    (top_k_value_count_list : List (PyValue × ℚ)) (is_categorical is_weighted_stats : Bool)
    (num_top_values : Nat) (frequency_threshold : ℚ)
    (num_rank_histogram_buckets : Nat) : FeatureNameStatisticsTopK :=
  let sorted := sortValueCountList top_k_value_count_list
  let tb := topkAssemble num_top_values frequency_threshold
    num_rank_histogram_buckets 0 sorted
  { path := feature_path
    isIntType := is_categorical
    string_stats :=
      if is_weighted_stats then
        { top_values := [], rank_histogram := [], unique := 0,
          weighted_string_stats := some ⟨tb.1, tb.2⟩ }
      else
        { top_values := tb.1, rank_histogram := tb.2, unique := 0,
          weighted_string_stats := none } }

/-- `_make_feature_stats_proto` of the combiner generator: unweighted top-k stats, the
weighted block copied in when a non-empty weighted value-count list was provided, and
the uniques count set to the length of the (unweighted) value-count list. -/
def make_feature_stats_proto (cfg : TopKConfig) (feature_path : FeaturePath)
    (value_count_list : List (PyValue × ℚ))
    (weighted_value_count_list : Option (List (PyValue × ℚ)))
    (is_categorical : Bool) : FeatureNameStatisticsTopK :=
  let result := make_feature_stats_proto_with_topk_stats feature_path value_count_list
    is_categorical false cfg.numTopValues cfg.frequencyThreshold
    cfg.numRankHistogramBuckets
  let result :=
    match weighted_value_count_list with
    | none => result
    | some wvcl =>
      if wvcl.isEmpty then result
      else
        let weighted_result := make_feature_stats_proto_with_topk_stats feature_path
          wvcl is_categorical true cfg.numTopValues cfg.weightedFrequencyThreshold
          cfg.numRankHistogramBuckets
        { result with string_stats :=
            { result.string_stats with weighted_string_stats :=
                weighted_result.string_stats.weighted_string_stats } }
  { result with string_stats :=
      { result.string_stats with unique := value_count_list.length } }

/-- `_make_dataset_feature_stats_proto_with_multiple_features`: one feature proto per
entry of the unweighted dict; when the weighted dict is non-empty the feature's weighted
value counts are looked up in it — a missing key there raises (`KeyError`), modelled as
`Except.error`. -/
def make_dataset_feature_stats_proto_with_multiple_features (cfg : TopKConfig)
    (feature_names_to_value_counts : List (FeaturePath × List (PyValue × ℚ)))
    (weighted_feature_names_to_value_counts : List (FeaturePath × List (PyValue × ℚ))) :
    Except String (List FeatureNameStatisticsTopK) :=
  feature_names_to_value_counts.mapM fun item => do
    let weighted_value_count ←
      if weighted_feature_names_to_value_counts.isEmpty then pure none
      else
        match alookup weighted_feature_names_to_value_counts item.1 with
        | some w => pure (some w)
        | none => throw "KeyError"
    pure (make_feature_stats_proto cfg item.1 item.2 weighted_value_count
      (item.1 ∈ cfg.categoricalFeatures))

/-- `TopKUniquesCombinerStatsGenerator.extract_output`: build the unweighted and weighted
value-count dicts (skipping empty counters) and assemble the feature protos. -/
def TopKUniques.extract_output (cfg : TopKConfig) (acc : TopKAccumulator) :
    Except String (List FeatureNameStatisticsTopK) :=
  let feature_paths_to_value_counts :=
    (acc.filter fun item => ¬ item.2.unweighted_counts.isEmpty).map
      fun item => (item.1, item.2.unweighted_counts)
  let feature_paths_to_weighted_value_counts :=
    (acc.filter fun item => ¬ item.2.weighted_counts.isEmpty).map
      fun item => (item.1, item.2.weighted_counts)
  make_dataset_feature_stats_proto_with_multiple_features cfg
    feature_paths_to_value_counts feature_paths_to_weighted_value_counts

/-! ### Properties of the top-k assembly loop -/

theorem topkAssemble_top_values_length (nt : Nat) (th : ℚ) (nb : Nat) :
    ∀ (i : Nat) (l : List (PyValue × ℚ)),
      (topkAssemble nt th nb i l).1.length ≤ nt - i := by
  intro i l
  induction l generalizing i with
  | nil => simp [topkAssemble]
  | cons p rest ih =>
    obtain ⟨v, c⟩ := p
    rw [topkAssemble]
    by_cases hc : c < th
    · simp [hc]
    · rw [if_neg hc]
      by_cases hi : i < nt
      · simp only [if_pos hi, List.length_cons]
        have := ih (i + 1)
        omega
      · simp only [if_neg hi]
        have := ih (i + 1)
        omega

theorem topkAssemble_rank_histogram_length (nt : Nat) (th : ℚ) (nb : Nat) :
    ∀ (i : Nat) (l : List (PyValue × ℚ)),
      (topkAssemble nt th nb i l).2.length ≤ nb - i := by
  intro i l
  induction l generalizing i with
  | nil => simp [topkAssemble]
  | cons p rest ih =>
    obtain ⟨v, c⟩ := p
    rw [topkAssemble]
    by_cases hc : c < th
    · simp [hc]
    · rw [if_neg hc]
      by_cases hi : i < nb
      · simp only [if_pos hi, List.length_cons]
        have := ih (i + 1)
        omega
      · simp only [if_neg hi]
        have := ih (i + 1)
        omega

/-- Every emitted top-value entry comes from an input entry whose count meets the
frequency threshold, with the entry's label and count. -/
theorem topkAssemble_top_values_mem (nt : Nat) (th : ℚ) (nb : Nat) :
    ∀ (i : Nat) (l : List (PyValue × ℚ)) (tv : TopValueFreq),
      tv ∈ (topkAssemble nt th nb i l).1 →
      ∃ p ∈ l, tv.value = topkEntryLabel p.1 ∧ tv.frequency = p.2 ∧ th ≤ p.2 := by
  intro i l
  induction l generalizing i with
  | nil => simp [topkAssemble]
  | cons p rest ih =>
    obtain ⟨v, c⟩ := p
    intro tv htv
    rw [topkAssemble] at htv
    by_cases hc : c < th
    · simp [hc] at htv
    · rw [if_neg hc] at htv
      by_cases hi : i < nt
      · simp only [if_pos hi, List.mem_cons] at htv
        rcases htv with h | h
        · exact ⟨(v, c), List.mem_cons_self .., by simp [h, le_of_not_lt hc]⟩
        · obtain ⟨q, hq, hprops⟩ := ih (i + 1) tv h
          exact ⟨q, List.mem_cons_of_mem _ hq, hprops⟩
      · simp only [if_neg hi] at htv
        obtain ⟨q, hq, hprops⟩ := ih (i + 1) tv htv
        exact ⟨q, List.mem_cons_of_mem _ hq, hprops⟩

/-- Every emitted rank-histogram bucket comes from an input entry whose count meets the
frequency threshold, with the entry's label and count. -/
theorem topkAssemble_rank_histogram_mem (nt : Nat) (th : ℚ) (nb : Nat) :
    ∀ (i : Nat) (l : List (PyValue × ℚ)) (b : RankHistogramBucket),
      b ∈ (topkAssemble nt th nb i l).2 →
      ∃ p ∈ l, b.label = topkEntryLabel p.1 ∧ b.sample_count = p.2 ∧ th ≤ p.2 := by
  intro i l
  induction l generalizing i with
  | nil => simp [topkAssemble]
  | cons p rest ih =>
    obtain ⟨v, c⟩ := p
    intro b hb
    rw [topkAssemble] at hb
    by_cases hc : c < th
    · simp [hc] at hb
    · rw [if_neg hc] at hb
      by_cases hi : i < nb
      · simp only [if_pos hi, List.mem_cons] at hb
        rcases hb with h | h
        · exact ⟨(v, c), List.mem_cons_self .., by simp [h, le_of_not_lt hc]⟩
        · obtain ⟨q, hq, hprops⟩ := ih (i + 1) b h
          exact ⟨q, List.mem_cons_of_mem _ hq, hprops⟩
      · simp only [if_neg hi] at hb
        obtain ⟨q, hq, hprops⟩ := ih (i + 1) b hb
        exact ⟨q, List.mem_cons_of_mem _ hq, hprops⟩

theorem sortValueCountList_perm (l : List (PyValue × ℚ)) :
    (sortValueCountList l).Perm l :=
  List.perm_insertionSort valueCountGE l

theorem sortValueCountList_sorted (l : List (PyValue × ℚ)) :
    List.Sorted valueCountGE (sortValueCountList l) :=
  List.sorted_insertionSort valueCountGE l

/-- Sorting depends only on the multiset of entries: the key order is antisymmetric, so
the sorted permutation is unique. -/
theorem sortValueCountList_eq_of_perm {l₁ l₂ : List (PyValue × ℚ)} (h : l₁.Perm l₂) :
    sortValueCountList l₁ = sortValueCountList l₂ :=
  List.eq_of_perm_of_sorted
    (((sortValueCountList_perm l₁).trans h).trans (sortValueCountList_perm l₂).symm)
    (sortValueCountList_sorted l₁) (sortValueCountList_sorted l₂)

theorem make_feature_stats_proto_top_values (cfg : TopKConfig) (fp : FeaturePath)
    (vcl : List (PyValue × ℚ)) (wvcl : Option (List (PyValue × ℚ))) (cat : Bool) :
    (make_feature_stats_proto cfg fp vcl wvcl cat).string_stats.top_values =
      (topkAssemble cfg.numTopValues cfg.frequencyThreshold
        cfg.numRankHistogramBuckets 0 (sortValueCountList vcl)).1 := by
  cases wvcl with
  | none => simp [make_feature_stats_proto, make_feature_stats_proto_with_topk_stats]
  | some w =>
    by_cases hw : w.isEmpty <;>
      simp [make_feature_stats_proto, make_feature_stats_proto_with_topk_stats, hw]

theorem make_feature_stats_proto_rank_histogram (cfg : TopKConfig) (fp : FeaturePath)
    (vcl : List (PyValue × ℚ)) (wvcl : Option (List (PyValue × ℚ))) (cat : Bool) :
    (make_feature_stats_proto cfg fp vcl wvcl cat).string_stats.rank_histogram =
      (topkAssemble cfg.numTopValues cfg.frequencyThreshold
        cfg.numRankHistogramBuckets 0 (sortValueCountList vcl)).2 := by
  cases wvcl with
  | none => simp [make_feature_stats_proto, make_feature_stats_proto_with_topk_stats]
  | some w =>
    by_cases hw : w.isEmpty <;>
      simp [make_feature_stats_proto, make_feature_stats_proto_with_topk_stats, hw]

theorem make_feature_stats_proto_unique (cfg : TopKConfig) (fp : FeaturePath)
    (vcl : List (PyValue × ℚ)) (wvcl : Option (List (PyValue × ℚ))) (cat : Bool) :
    (make_feature_stats_proto cfg fp vcl wvcl cat).string_stats.unique =
      vcl.length := by
  cases wvcl with
  | none => simp [make_feature_stats_proto, make_feature_stats_proto_with_topk_stats]
  | some w =>
    by_cases hw : w.isEmpty <;>
      simp [make_feature_stats_proto, make_feature_stats_proto_with_topk_stats, hw]

theorem make_feature_stats_proto_weighted_some (cfg : TopKConfig) (fp : FeaturePath)
    (vcl : List (PyValue × ℚ)) (wvcl : Option (List (PyValue × ℚ))) (cat : Bool)
    (w : WeightedStringStatsTopK) :
    (make_feature_stats_proto cfg fp vcl wvcl cat).string_stats.weighted_string_stats =
        some w ↔
      ∃ wl, wvcl = some wl ∧ wl.isEmpty = false ∧
        w = ⟨(topkAssemble cfg.numTopValues cfg.weightedFrequencyThreshold
            cfg.numRankHistogramBuckets 0 (sortValueCountList wl)).1,
          (topkAssemble cfg.numTopValues cfg.weightedFrequencyThreshold
            cfg.numRankHistogramBuckets 0 (sortValueCountList wl)).2⟩ := by
  cases wvcl with
  | none =>
    simp [make_feature_stats_proto, make_feature_stats_proto_with_topk_stats]
  | some wl =>
    by_cases hw : wl.isEmpty
    · rw [show (make_feature_stats_proto cfg fp vcl (some wl)
          cat).string_stats.weighted_string_stats = none by
        simp [make_feature_stats_proto, make_feature_stats_proto_with_topk_stats, hw]]
      constructor
      · intro h
        exact absurd h (by simp)
      · rintro ⟨wl', hl, hne, -⟩
        obtain rfl := Option.some_injective _ hl
        rw [hw] at hne
        cases hne
    · rw [show (make_feature_stats_proto cfg fp vcl (some wl)
          cat).string_stats.weighted_string_stats =
          some ⟨(topkAssemble cfg.numTopValues cfg.weightedFrequencyThreshold
              cfg.numRankHistogramBuckets 0 (sortValueCountList wl)).1,
            (topkAssemble cfg.numTopValues cfg.weightedFrequencyThreshold
              cfg.numRankHistogramBuckets 0 (sortValueCountList wl)).2⟩ by
        simp [make_feature_stats_proto, make_feature_stats_proto_with_topk_stats, hw]]
      constructor
      · intro h
        exact ⟨wl, rfl, by simpa using hw, (Option.some_injective _ h).symm⟩
      · rintro ⟨wl', hl, -, rfl⟩
        obtain rfl := Option.some_injective _ hl
        rfl

/-- Claim C6: in the top-k output assembly (`_make_feature_stats_proto` built on
`make_feature_stats_proto_with_topk_stats`), every value whose count is below the
frequency threshold is excluded from both the top-values list and the rank histogram
(equivalently, every emitted entry's count meets the threshold — the weighted block
against the weighted threshold), the top-values list has at most `num_top_values`
entries, the rank histogram at most `num_rank_histogram_buckets` entries, and the
reported unique count equals the number of entries of the (distinct-keyed) value-count
list taken from the accumulator, below-threshold values included. -/
theorem claim_C6_topk_output_bounds (cfg : TopKConfig) (fp : FeaturePath)
    (vcl : List (PyValue × ℚ)) (wvcl : Option (List (PyValue × ℚ))) (cat : Bool) :
    (make_feature_stats_proto cfg fp vcl wvcl cat).string_stats.unique = vcl.length ∧
    (make_feature_stats_proto cfg fp vcl wvcl cat).string_stats.top_values.length ≤
      cfg.numTopValues ∧
    (make_feature_stats_proto cfg fp vcl wvcl cat).string_stats.rank_histogram.length ≤
      cfg.numRankHistogramBuckets ∧
    (∀ tv ∈ (make_feature_stats_proto cfg fp vcl wvcl cat).string_stats.top_values,
      cfg.frequencyThreshold ≤ tv.frequency) ∧
    (∀ b ∈ (make_feature_stats_proto cfg fp vcl wvcl cat).string_stats.rank_histogram,
      cfg.frequencyThreshold ≤ b.sample_count) ∧
    (∀ w, (make_feature_stats_proto cfg fp vcl wvcl
        cat).string_stats.weighted_string_stats = some w →
      w.top_values.length ≤ cfg.numTopValues ∧
      w.rank_histogram.length ≤ cfg.numRankHistogramBuckets ∧
      (∀ tv ∈ w.top_values, cfg.weightedFrequencyThreshold ≤ tv.frequency) ∧
      (∀ b ∈ w.rank_histogram, cfg.weightedFrequencyThreshold ≤ b.sample_count)) := by
  refine ⟨make_feature_stats_proto_unique .., ?_, ?_, ?_, ?_, ?_⟩
  · rw [make_feature_stats_proto_top_values]
    simpa using topkAssemble_top_values_length cfg.numTopValues
      cfg.frequencyThreshold cfg.numRankHistogramBuckets 0 (sortValueCountList vcl)
  · rw [make_feature_stats_proto_rank_histogram]
    simpa using topkAssemble_rank_histogram_length cfg.numTopValues
      cfg.frequencyThreshold cfg.numRankHistogramBuckets 0 (sortValueCountList vcl)
  · rw [make_feature_stats_proto_top_values]
    intro tv htv
    obtain ⟨p, -, -, hfreq, hth⟩ := topkAssemble_top_values_mem _ _ _ _ _ _ htv
    exact hfreq ▸ hth
  · rw [make_feature_stats_proto_rank_histogram]
    intro b hb
    obtain ⟨p, -, -, hcount, hth⟩ := topkAssemble_rank_histogram_mem _ _ _ _ _ _ hb
    exact hcount ▸ hth
  · intro w hw
    obtain ⟨wl, -, -, rfl⟩ := (make_feature_stats_proto_weighted_some ..).mp hw
    refine ⟨?_, ?_, ?_, ?_⟩
    · simpa using topkAssemble_top_values_length cfg.numTopValues
        cfg.weightedFrequencyThreshold cfg.numRankHistogramBuckets 0
        (sortValueCountList wl)
    · simpa using topkAssemble_rank_histogram_length cfg.numTopValues
        cfg.weightedFrequencyThreshold cfg.numRankHistogramBuckets 0
        (sortValueCountList wl)
    · intro tv htv
      obtain ⟨p, -, -, hfreq, hth⟩ := topkAssemble_top_values_mem _ _ _ _ _ _ htv
      exact hfreq ▸ hth
    · intro b hb
      obtain ⟨p, -, -, hcount, hth⟩ :=
        topkAssemble_rank_histogram_mem _ _ _ _ _ _ hb
      exact hcount ▸ hth

/-- Claim C7: top-k ordering is deterministic.  `make_feature_stats_proto_with_topk_stats`
ranks entries by descending count with ties broken by descending value: on counts
{a: 2, b: 1, c: 1} the rank histogram lists `a` first and, between equal-count `b` and
`c`, the lexicographically larger `c` receives the higher rank (and the top-values list
agrees); the sorted list is always sorted under the descending (count, value) key order;
and the output depends only on the multiset of value-count pairs, so two runs on the
same multiset produce identical orderings. -/
theorem claim_C7_topk_ordering_deterministic :
    (((make_feature_stats_proto_with_topk_stats ⟨["f"]⟩
        [(PyValue.vText "a".data, (2 : ℚ)), (PyValue.vText "b".data, 1),
          (PyValue.vText "c".data, 1)] false false 2 1 1000
        ).string_stats.rank_histogram.map fun b => b.label) =
      ["a".data, "c".data, "b".data] ∧
     ((make_feature_stats_proto_with_topk_stats ⟨["f"]⟩
        [(PyValue.vText "a".data, (2 : ℚ)), (PyValue.vText "b".data, 1),
          (PyValue.vText "c".data, 1)] false false 2 1 1000
        ).string_stats.top_values.map fun tv => tv.value) =
      ["a".data, "c".data]) ∧
    (∀ l : List (PyValue × ℚ), List.Sorted valueCountGE (sortValueCountList l)) ∧
    (∀ (fp : FeaturePath) (cat w : Bool) (nt : Nat) (th : ℚ) (nb : Nat)
        (l₁ l₂ : List (PyValue × ℚ)), l₁.Perm l₂ →
      make_feature_stats_proto_with_topk_stats fp l₁ cat w nt th nb =
        make_feature_stats_proto_with_topk_stats fp l₂ cat w nt th nb) := by
  refine ⟨by decide, sortValueCountList_sorted, ?_⟩
  intro fp cat w nt th nb l₁ l₂ h
  unfold make_feature_stats_proto_with_topk_stats
  rw [sortValueCountList_eq_of_perm h]

/-- Witness for C7 at a concrete permutation: two differently-ordered runs over the same
value-count multiset produce identical protos. -/
theorem claim_C7_witness :
    ([(PyValue.vText "b".data, (1 : ℚ)), (PyValue.vText "a".data, 2),
        (PyValue.vText "c".data, 1)].Perm
      [(PyValue.vText "a".data, (2 : ℚ)), (PyValue.vText "b".data, 1),
        (PyValue.vText "c".data, 1)]) ∧
    make_feature_stats_proto_with_topk_stats ⟨["f"]⟩
        [(PyValue.vText "b".data, (1 : ℚ)), (PyValue.vText "a".data, 2),
          (PyValue.vText "c".data, 1)] false false 2 1 1000 =
      make_feature_stats_proto_with_topk_stats ⟨["f"]⟩
        [(PyValue.vText "a".data, (2 : ℚ)), (PyValue.vText "b".data, 1),
          (PyValue.vText "c".data, 1)] false false 2 1 1000 :=
  ⟨by decide, claim_C7_topk_ordering_deterministic.2.2 ⟨["f"]⟩ false false 2 1 1000
    _ _ (by decide)⟩

/-- Claim C8: every bytes value in a top-k value-count list that cannot be decoded as
UTF-8 is given the fixed sentinel label `__BYTES_VALUE__` in the output, decodable
bytes keep their decoded text, and every emitted entry's label is the rendering of an
input entry meeting the threshold (the assembly is a total function, so no entry can
abort it). -/
theorem claim_C8_bytes_sentinel (fp : FeaturePath) (vcl : List (PyValue × ℚ))
    (cat : Bool) (nt : Nat) (th : ℚ) (nb : Nat) :
    (∀ b ∈ (make_feature_stats_proto_with_topk_stats fp vcl cat false nt th
        nb).string_stats.rank_histogram,
      ∃ p ∈ vcl, b.label = topkEntryLabel p.1 ∧ b.sample_count = p.2 ∧ th ≤ p.2) ∧
    (∀ tv ∈ (make_feature_stats_proto_with_topk_stats fp vcl cat false nt th
        nb).string_stats.top_values,
      ∃ p ∈ vcl, tv.value = topkEntryLabel p.1 ∧ tv.frequency = p.2 ∧ th ≤ p.2) ∧
    topkEntryLabel (PyValue.vBytes none) = invalidString ∧
    (∀ s, topkEntryLabel (PyValue.vBytes (some s)) = s) := by
  refine ⟨?_, ?_, rfl, fun s => rfl⟩
  · intro b hb
    have hb' : b ∈ (topkAssemble nt th nb 0 (sortValueCountList vcl)).2 := by
      simpa [make_feature_stats_proto_with_topk_stats] using hb
    obtain ⟨p, hp, hprops⟩ := topkAssemble_rank_histogram_mem _ _ _ _ _ _ hb'
    exact ⟨p, (sortValueCountList_perm vcl).mem_iff.mp hp, hprops⟩
  · intro tv htv
    have htv' : tv ∈ (topkAssemble nt th nb 0 (sortValueCountList vcl)).1 := by
      simpa [make_feature_stats_proto_with_topk_stats] using htv
    obtain ⟨p, hp, hprops⟩ := topkAssemble_top_values_mem _ _ _ _ _ _ htv'
    exact ⟨p, (sortValueCountList_perm vcl).mem_iff.mp hp, hprops⟩

/-- Witness for C8: an undecodable bytes value with count 5 produces a rank-histogram
bucket labelled with the sentinel. -/
theorem claim_C8_witness :
    ∃ p ∈ [((PyValue.vBytes none : PyValue), (5 : ℚ))],
      (RankHistogramBucket.mk 0 0 5 invalidString).label = topkEntryLabel p.1 ∧
      (RankHistogramBucket.mk 0 0 5 invalidString).sample_count = p.2 ∧ (1 : ℚ) ≤ p.2 :=
  (claim_C8_bytes_sentinel ⟨["f"]⟩ [(PyValue.vBytes none, 5)] false 1 1 1000).1
    ⟨0, 0, 5, invalidString⟩ (by decide)

/-- Witness for C6 at a concrete configuration: a below-threshold value is still counted
as unique, and the emitted top value meets the threshold. -/
theorem claim_C6_witness :
    (make_feature_stats_proto ⟨[], 2, 1, 1, 1000⟩ ⟨["f"]⟩
      [(PyValue.vText "a".data, 2), (PyValue.vText "b".data, 0)] none
      false).string_stats.unique = 2 ∧
    (1 : ℚ) ≤ (TopValueFreq.mk "a".data 2).frequency :=
  ⟨(claim_C6_topk_output_bounds ⟨[], 2, 1, 1, 1000⟩ ⟨["f"]⟩
      [(PyValue.vText "a".data, 2), (PyValue.vText "b".data, 0)] none false).1,
   (claim_C6_topk_output_bounds ⟨[], 2, 1, 1, 1000⟩ ⟨["f"]⟩
      [(PyValue.vText "a".data, 2), (PyValue.vText "b".data, 0)] none
      false).2.2.2.1 ⟨"a".data, 2⟩ (by decide)⟩

/-! ### Pointwise counts of merged top-k accumulators

What `merge_accumulators` computes, value by value.  `accGetU`/`accGetW` read the
unweighted/weighted count an accumulator holds for feature path `p` and value `v`. -/

open TopKUniques (mergeItem mergeValueCounts)

/-- The unweighted count an accumulator holds for path `p`, value `v` (0 when absent). -/
def accGetU (acc : TopKAccumulator) (p : FeaturePath) (v : PyValue) : ℚ :=
  match alookup acc p with
  | none => 0
  | some vc => cGet vc.unweighted_counts v

/-- The weighted count an accumulator holds for path `p`, value `v` (0 when absent). -/
def accGetW (acc : TopKAccumulator) (p : FeaturePath) (v : PyValue) : ℚ :=
  match alookup acc p with
  | none => 0
  | some vc => cGet vc.weighted_counts v

/-- Total unweighted count contributed at `(p, v)` by a list of accumulator items. -/
def entriesMassU (es : List (FeaturePath × ValueCounts)) (p : FeaturePath)
    (v : PyValue) : ℚ :=
  (es.map fun e => if e.1 = p then cGet e.2.unweighted_counts v else 0).sum

/-- Total weighted count contributed at `(p, v)` by a list of accumulator items. -/
def entriesMassW (es : List (FeaturePath × ValueCounts)) (p : FeaturePath)
    (v : PyValue) : ℚ :=
  (es.map fun e => if e.1 = p then cGet e.2.weighted_counts v else 0).sum

/-- Well-formedness of accumulator items as the generator produces them: each counter
has no duplicate keys. -/
def EntriesWF (es : List (FeaturePath × ValueCounts)) : Prop :=
  ∀ e ∈ es, (cKeys e.2.unweighted_counts).Nodup ∧ (cKeys e.2.weighted_counts).Nodup

instance (es : List (FeaturePath × ValueCounts)) : Decidable (EntriesWF es) :=
  inferInstanceAs (Decidable (∀ e ∈ es, _ ∧ _))

/-- The proviso under which the weighted side of `merge_accumulators` is
order-independent: at path `p`, the incoming accumulators' weighted counters are either
all non-empty or all empty. -/
def WeightedMergeCond (accs : List TopKAccumulator) (p : FeaturePath) : Prop :=
  (∀ a ∈ accs, ∀ e ∈ a, e.1 = p → e.2.weighted_counts ≠ []) ∨
  (∀ a ∈ accs, ∀ e ∈ a, e.1 = p → e.2.weighted_counts = [])

theorem entriesMassU_append (es fs : List (FeaturePath × ValueCounts)) (p : FeaturePath)
    (v : PyValue) : entriesMassU (es ++ fs) p v = entriesMassU es p v +
      entriesMassU fs p v := by
  simp [entriesMassU]

theorem entriesMassW_append (es fs : List (FeaturePath × ValueCounts)) (p : FeaturePath)
    (v : PyValue) : entriesMassW (es ++ fs) p v = entriesMassW es p v +
      entriesMassW fs p v := by
  simp [entriesMassW]

theorem entriesMassU_perm {es fs : List (FeaturePath × ValueCounts)} (h : es.Perm fs)
    (p : FeaturePath) (v : PyValue) : entriesMassU es p v = entriesMassU fs p v :=
  (h.map _).sum_eq

theorem entriesMassW_perm {es fs : List (FeaturePath × ValueCounts)} (h : es.Perm fs)
    (p : FeaturePath) (v : PyValue) : entriesMassW es p v = entriesMassW fs p v :=
  (h.map _).sum_eq

theorem accGetU_of_lookup {acc : TopKAccumulator} {p : FeaturePath} {vc : ValueCounts}
    (h : alookup acc p = some vc) (v : PyValue) :
    accGetU acc p v = cGet vc.unweighted_counts v := by
  simp [accGetU, h]

theorem accGetU_of_lookup_none {acc : TopKAccumulator} {p : FeaturePath}
    (h : alookup acc p = none) (v : PyValue) : accGetU acc p v = 0 := by
  simp [accGetU, h]

theorem accGetW_of_lookup {acc : TopKAccumulator} {p : FeaturePath} {vc : ValueCounts}
    (h : alookup acc p = some vc) (v : PyValue) :
    accGetW acc p v = cGet vc.weighted_counts v := by
  simp [accGetW, h]

theorem accGetW_of_lookup_none {acc : TopKAccumulator} {p : FeaturePath}
    (h : alookup acc p = none) (v : PyValue) : accGetW acc p v = 0 := by
  simp [accGetW, h]

theorem entriesMassU_cons (e : FeaturePath × ValueCounts)
    (es : List (FeaturePath × ValueCounts)) (p : FeaturePath) (v : PyValue) :
    entriesMassU (e :: es) p v =
      (if e.1 = p then cGet e.2.unweighted_counts v else 0) + entriesMassU es p v := by
  simp [entriesMassU]

theorem entriesMassW_cons (e : FeaturePath × ValueCounts)
    (es : List (FeaturePath × ValueCounts)) (p : FeaturePath) (v : PyValue) :
    entriesMassW (e :: es) p v =
      (if e.1 = p then cGet e.2.weighted_counts v else 0) + entriesMassW es p v := by
  simp [entriesMassW]

theorem alookup_mergeItem_ne (r : TopKAccumulator) (item : FeaturePath × ValueCounts)
    (p : FeaturePath) (h : item.1 ≠ p) :
    alookup (mergeItem r item) p = alookup r p := by
  rw [mergeItem]
  cases hl : alookup r item.1 with
  | none => exact alookup_append_left r item p h
  | some old => rw [alookup_aset, if_neg (fun hc => h hc.1)]

theorem alookup_mergeItem_self (r : TopKAccumulator)
    (item : FeaturePath × ValueCounts) :
    alookup (mergeItem r item) item.1 =
      some (match alookup r item.1 with
            | none => item.2
            | some old => mergeValueCounts old item.2) := by
  rw [mergeItem]
  cases hl : alookup r item.1 with
  | none => rw [alookup_append_right r item item.1 hl, if_pos rfl]
  | some old => rw [alookup_aset, if_pos ⟨rfl, by rw [hl]; rfl⟩]

theorem accGetU_mergeItem (r : TopKAccumulator) (item : FeaturePath × ValueCounts)
    (hnodup : (cKeys item.2.unweighted_counts).Nodup) (p : FeaturePath) (v : PyValue) :
    accGetU (mergeItem r item) p v =
      accGetU r p v + if item.1 = p then cGet item.2.unweighted_counts v else 0 := by
  by_cases hp : item.1 = p
  · subst hp
    rw [if_pos rfl, accGetU_of_lookup (alookup_mergeItem_self r item)]
    cases hl : alookup r item.1 with
    | none =>
      rw [accGetU_of_lookup_none hl]
      simp
    | some old =>
      rw [accGetU_of_lookup hl]
      show cGet (mergeValueCounts old item.2).unweighted_counts v = _
      rw [mergeValueCounts, cGet_cUpdate _ hnodup]
  · rw [if_neg hp, add_zero]
    simp only [accGetU]
    rw [alookup_mergeItem_ne r item p hp]

theorem accGetU_foldl_mergeItem (es : List (FeaturePath × ValueCounts))
    (hWF : ∀ e ∈ es, (cKeys e.2.unweighted_counts).Nodup) (r : TopKAccumulator)
    (p : FeaturePath) (v : PyValue) :
    accGetU (es.foldl mergeItem r) p v = accGetU r p v + entriesMassU es p v := by
  induction es generalizing r with
  | nil => simp [entriesMassU]
  | cons e es ih =>
    rw [List.foldl_cons, ih (fun f hf => hWF f (List.mem_cons_of_mem _ hf)),
      accGetU_mergeItem r e (hWF e (List.mem_cons_self ..)), entriesMassU_cons]
    ring

/-- The result holds, at `p`, only value-counts with a non-empty weighted counter
(trivially true when `p` is absent). -/
def PathRW (r : TopKAccumulator) (p : FeaturePath) : Prop :=
  ∀ vc, alookup r p = some vc → vc.weighted_counts ≠ []

/-- The result holds, at `p`, only value-counts with an empty weighted counter. -/
def PathRE (r : TopKAccumulator) (p : FeaturePath) : Prop :=
  ∀ vc, alookup r p = some vc → vc.weighted_counts = []

theorem accGetW_mergeItem_of_rw (r : TopKAccumulator)
    (item : FeaturePath × ValueCounts) (p : FeaturePath) (v : PyValue)
    (hrw : PathRW r p) (hnodup : (cKeys item.2.weighted_counts).Nodup)
    (hitem : item.1 = p → item.2.weighted_counts ≠ []) :
    accGetW (mergeItem r item) p v =
      accGetW r p v + (if item.1 = p then cGet item.2.weighted_counts v else 0) ∧
    PathRW (mergeItem r item) p := by
  by_cases hp : item.1 = p
  · subst hp
    constructor
    · rw [if_pos rfl, accGetW_of_lookup (alookup_mergeItem_self r item)]
      cases hl : alookup r item.1 with
      | none =>
        rw [accGetW_of_lookup_none hl]
        simp
      | some old =>
        rw [accGetW_of_lookup hl]
        show cGet (mergeValueCounts old item.2).weighted_counts v = _
        rw [mergeValueCounts]
        have hold : old.weighted_counts ≠ [] := hrw old hl
        rw [if_neg (by simpa [List.isEmpty_iff] using hold), cGet_cUpdate _ hnodup]
    · intro vc hvc
      rw [alookup_mergeItem_self] at hvc
      cases hl : alookup r item.1 with
      | none =>
        rw [hl] at hvc
        obtain rfl := Option.some_injective _ hvc
        exact hitem rfl
      | some old =>
        rw [hl] at hvc
        obtain rfl := Option.some_injective _ hvc
        have hold : old.weighted_counts ≠ [] := hrw old hl
        show (mergeValueCounts old item.2).weighted_counts ≠ []
        rw [mergeValueCounts]
        rw [if_neg (by simpa [List.isEmpty_iff] using hold)]
        intro hc
        exact hold ((counterFold_eq_nil_iff ..).mp hc).1
  · constructor
    · rw [if_neg hp, add_zero]
      simp only [accGetW]
      rw [alookup_mergeItem_ne r item p hp]
    · intro vc hvc
      rw [alookup_mergeItem_ne r item p hp] at hvc
      exact hrw vc hvc

theorem accGetW_foldl_mergeItem (es : List (FeaturePath × ValueCounts))
    (hWF : ∀ e ∈ es, (cKeys e.2.weighted_counts).Nodup)
    (hne : ∀ e ∈ es, e.1 = p → e.2.weighted_counts ≠ []) (r : TopKAccumulator)
    (hrw : PathRW r p) (v : PyValue) :
    accGetW (es.foldl mergeItem r) p v = accGetW r p v + entriesMassW es p v ∧
    PathRW (es.foldl mergeItem r) p := by
  induction es generalizing r with
  | nil => simpa [entriesMassW] using hrw
  | cons e es ih =>
    obtain ⟨hstep, hrw'⟩ := accGetW_mergeItem_of_rw r e p v hrw
      (hWF e (List.mem_cons_self ..)) (hne e (List.mem_cons_self ..))
    obtain ⟨hfold, hrw''⟩ := ih (fun f hf => hWF f (List.mem_cons_of_mem _ hf))
      (fun f hf => hne f (List.mem_cons_of_mem _ hf)) (mergeItem r e) hrw'
    refine ⟨?_, hrw''⟩
    rw [List.foldl_cons, hfold, hstep, entriesMassW_cons]
    ring

theorem pathRE_foldl_mergeItem (es : List (FeaturePath × ValueCounts))
    (hemp : ∀ e ∈ es, e.1 = p → e.2.weighted_counts = []) (r : TopKAccumulator)
    (hre : PathRE r p) : PathRE (es.foldl mergeItem r) p := by
  induction es generalizing r with
  | nil => exact hre
  | cons e es ih =>
    rw [List.foldl_cons]
    refine ih (fun f hf => hemp f (List.mem_cons_of_mem _ hf)) (mergeItem r e) ?_
    intro vc hvc
    by_cases hp : e.1 = p
    · subst hp
      rw [alookup_mergeItem_self] at hvc
      cases hl : alookup r e.1 with
      | none =>
        rw [hl] at hvc
        obtain rfl := Option.some_injective _ hvc
        exact hemp e (List.mem_cons_self ..) rfl
      | some old =>
        rw [hl] at hvc
        obtain rfl := Option.some_injective _ hvc
        have hold : old.weighted_counts = [] := hre old hl
        show (mergeValueCounts old e.2).weighted_counts = []
        rw [mergeValueCounts, if_pos (by simp [hold])]
        exact hold
    · rw [alookup_mergeItem_ne r e p hp] at hvc
      exact hre vc hvc

theorem accGetW_eq_zero_of_re {r : TopKAccumulator} {p : FeaturePath}
    (hre : PathRE r p) (v : PyValue) : accGetW r p v = 0 := by
  cases hl : alookup r p with
  | none => exact accGetW_of_lookup_none hl v
  | some vc => rw [accGetW_of_lookup hl, hre vc hl]; rfl

theorem entriesMassW_eq_zero_of_empty {es : List (FeaturePath × ValueCounts)}
    {p : FeaturePath} (hemp : ∀ e ∈ es, e.1 = p → e.2.weighted_counts = [])
    (v : PyValue) : entriesMassW es p v = 0 := by
  induction es with
  | nil => rfl
  | cons e es ih =>
    rw [entriesMassW_cons, ih fun f hf => hemp f (List.mem_cons_of_mem _ hf)]
    by_cases hp : e.1 = p
    · rw [if_pos hp, hemp e (List.mem_cons_self ..) hp]
      simp [cGet]
    · rw [if_neg hp]; ring

theorem merge_accumulators_eq_foldl_flatten (accs : List TopKAccumulator) :
    TopKUniques.merge_accumulators accs = accs.flatten.foldl mergeItem [] := by
  rw [TopKUniques.merge_accumulators]
  suffices h : ∀ (accs : List TopKAccumulator) (r : TopKAccumulator),
      accs.foldl (fun result acc => acc.foldl mergeItem result) r =
        accs.flatten.foldl mergeItem r from h accs []
  intro accs
  induction accs with
  | nil => intro r; rfl
  | cons a accs ih =>
    intro r
    rw [List.foldl_cons, ih, List.flatten_cons, List.foldl_append]

/-- The unweighted count of a merged accumulator at any `(p, v)` is the total mass
contributed by all incoming items — unconditionally. -/
theorem merge_accumulators_getU (accs : List TopKAccumulator)
    (hWF : ∀ a ∈ accs, EntriesWF a) (p : FeaturePath) (v : PyValue) :
    accGetU (TopKUniques.merge_accumulators accs) p v = entriesMassU accs.flatten p v := by
  rw [merge_accumulators_eq_foldl_flatten,
    accGetU_foldl_mergeItem accs.flatten ?_ [] p v]
  · rw [accGetU_of_lookup_none (by rfl) v, zero_add]
  · intro e he
    obtain ⟨a, ha, hea⟩ := List.mem_flatten.mp he
    exact (hWF a ha e hea).1

/-- The weighted count of a merged accumulator at `(p, v)` is the total incoming mass,
provided every incoming item at `p` has a non-empty weighted counter. -/
theorem merge_accumulators_getW_nonempty (accs : List TopKAccumulator)
    (hWF : ∀ a ∈ accs, EntriesWF a)
    (hne : ∀ a ∈ accs, ∀ e ∈ a, e.1 = p → e.2.weighted_counts ≠ [])
    (v : PyValue) :
    accGetW (TopKUniques.merge_accumulators accs) p v =
      entriesMassW accs.flatten p v := by
  rw [merge_accumulators_eq_foldl_flatten]
  have h := accGetW_foldl_mergeItem (p := p) accs.flatten ?_ ?_ [] ?_ v
  · rw [h.1, accGetW_of_lookup_none (by rfl) v, zero_add]
  · intro e he
    obtain ⟨a, ha, hea⟩ := List.mem_flatten.mp he
    exact (hWF a ha e hea).2
  · intro e he
    obtain ⟨a, ha, hea⟩ := List.mem_flatten.mp he
    exact hne a ha e hea
  · intro vc hvc
    simp [alookup] at hvc

/-- When every incoming item at `p` has an empty weighted counter, so does the merge
result (and both sides of the mass identity are zero). -/
theorem merge_accumulators_getW_empty (accs : List TopKAccumulator)
    (hemp : ∀ a ∈ accs, ∀ e ∈ a, e.1 = p → e.2.weighted_counts = [])
    (v : PyValue) :
    accGetW (TopKUniques.merge_accumulators accs) p v =
      entriesMassW accs.flatten p v := by
  rw [merge_accumulators_eq_foldl_flatten]
  have hre : PathRE (accs.flatten.foldl mergeItem []) p := by
    refine pathRE_foldl_mergeItem accs.flatten ?_ [] ?_
    · intro e he
      obtain ⟨a, ha, hea⟩ := List.mem_flatten.mp he
      exact hemp a ha e hea
    · intro vc hvc
      simp [alookup] at hvc
  rw [accGetW_eq_zero_of_re hre v,
    entriesMassW_eq_zero_of_empty (fun e he => ?_) v]
  obtain ⟨a, ha, hea⟩ := List.mem_flatten.mp he
  exact hemp a ha e hea

/-! ### The merge result as an accumulator: well-formedness and regrouping -/

theorem alookup_eq_none_iff {κ β : Type} [DecidableEq κ] (d : List (κ × β)) (p : κ) :
    alookup d p = none ↔ p ∉ d.map Prod.fst := by
  induction d with
  | nil => simp [alookup]
  | cons e rest ih =>
    obtain ⟨k, x⟩ := e
    by_cases hkp : k = p
    · subst hkp
      simp [alookup]
    · simp only [alookup, if_neg hkp, List.map_cons, List.mem_cons, ih]
      constructor
      · rintro h (h' | h')
        · exact hkp h'.symm
        · exact h h'
      · intro h h'
        exact h (Or.inr h')

theorem alookup_of_mem_nodup {κ β : Type} [DecidableEq κ] {d : List (κ × β)}
    (hnodup : (d.map Prod.fst).Nodup) {e : κ × β} (he : e ∈ d) :
    alookup d e.1 = some e.2 := by
  induction d with
  | nil => simp at he
  | cons f rest ih =>
    obtain ⟨k, x⟩ := f
    simp only [List.map_cons, List.nodup_cons] at hnodup
    rcases List.mem_cons.mp he with rfl | he'
    · simp [alookup]
    · have hk : k ≠ e.1 := by
        intro hk
        exact hnodup.1 (hk ▸ (List.mem_map.mpr ⟨e, he', rfl⟩))
      simp only [alookup, if_neg hk]
      exact ih hnodup.2 he'

theorem map_fst_aset {κ β : Type} [DecidableEq κ] (d : List (κ × β)) (k : κ) (y : β) :
    (aset d k y).map Prod.fst = d.map Prod.fst := by
  induction d with
  | nil => rfl
  | cons e rest ih =>
    obtain ⟨a, x⟩ := e
    by_cases hak : a = k
    · subst hak; simp [aset]
    · simp [aset, hak, ih]

theorem mem_of_alookup_eq_some {κ β : Type} [DecidableEq κ] {d : List (κ × β)} {p : κ}
    {x : β} (h : alookup d p = some x) : (p, x) ∈ d := by
  induction d with
  | nil => simp [alookup] at h
  | cons f rest ih =>
    obtain ⟨k, y⟩ := f
    by_cases hk : k = p
    · subst hk
      simp only [alookup, if_pos rfl] at h
      obtain rfl := Option.some_injective _ h
      exact List.mem_cons_self ..
    · simp only [alookup, if_neg hk] at h
      exact List.mem_cons_of_mem _ (ih h)

theorem mem_aset {κ β : Type} [DecidableEq κ] {d : List (κ × β)} {k : κ} {y : β}
    {e : κ × β} (he : e ∈ aset d k y) : e ∈ d ∨ e = (k, y) := by
  induction d with
  | nil => simp [aset] at he
  | cons f rest ih =>
    obtain ⟨a, x⟩ := f
    by_cases hak : a = k
    · subst hak
      rw [show aset ((a, x) :: rest) a y = (a, y) :: rest by simp [aset]] at he
      rcases List.mem_cons.mp he with h | h
      · exact Or.inr h
      · exact Or.inl (List.mem_cons_of_mem _ h)
    · rw [show aset ((a, x) :: rest) k y = (a, x) :: aset rest k y by
        simp [aset, hak]] at he
      rcases List.mem_cons.mp he with h | h
      · exact Or.inl (by rw [h]; exact List.mem_cons_self ..)
      · rcases ih h with h' | h'
        · exact Or.inl (List.mem_cons_of_mem _ h')
        · exact Or.inr h'

theorem paths_nodup_mergeItem {r : TopKAccumulator} (item : FeaturePath × ValueCounts)
    (h : (r.map Prod.fst).Nodup) : ((mergeItem r item).map Prod.fst).Nodup := by
  rw [mergeItem]
  cases hl : alookup r item.1 with
  | none =>
    rw [List.map_append]
    simp only [List.map_cons, List.map_nil]
    rw [List.nodup_append]
    refine ⟨h, by simp, ?_⟩
    intro a ha hb
    simp only [List.mem_cons, List.not_mem_nil, or_false] at hb
    subst hb
    exact (alookup_eq_none_iff r item.1).mp hl ha
  | some old => rw [map_fst_aset]; exact h

theorem paths_nodup_foldl_mergeItem (es : List (FeaturePath × ValueCounts))
    {r : TopKAccumulator} (h : (r.map Prod.fst).Nodup) :
    ((es.foldl mergeItem r).map Prod.fst).Nodup := by
  induction es generalizing r with
  | nil => exact h
  | cons e es ih => exact ih (paths_nodup_mergeItem e h)

theorem merge_accumulators_paths_nodup (accs : List TopKAccumulator) :
    ((TopKUniques.merge_accumulators accs).map Prod.fst).Nodup := by
  rw [merge_accumulators_eq_foldl_flatten]
  exact paths_nodup_foldl_mergeItem accs.flatten (by simp)

theorem entriesWF_mergeItem {r : TopKAccumulator} {item : FeaturePath × ValueCounts}
    (hr : EntriesWF r) (hitem : (cKeys item.2.unweighted_counts).Nodup ∧
      (cKeys item.2.weighted_counts).Nodup) : EntriesWF (mergeItem r item) := by
  rw [mergeItem]
  cases hl : alookup r item.1 with
  | none =>
    intro e he
    rcases List.mem_append.mp he with h | h
    · exact hr e h
    · simp only [List.mem_cons, List.not_mem_nil, or_false] at h
      subst h
      exact hitem
  | some old =>
    intro e he
    rcases mem_aset he with h | h
    · exact hr e h
    · subst h
      obtain ⟨hu, hw⟩ := hr (item.1, old) (mem_of_alookup_eq_some hl)
      constructor
      · exact cKeys_nodup_counterFold _ hu
      · show (cKeys (if old.weighted_counts.isEmpty then old.weighted_counts
          else cUpdate old.weighted_counts item.2.weighted_counts)).Nodup
        by_cases hemp : old.weighted_counts.isEmpty
        · rw [if_pos hemp]; exact hw
        · rw [if_neg hemp]; exact cKeys_nodup_counterFold _ hw

theorem entriesWF_foldl_mergeItem {es : List (FeaturePath × ValueCounts)}
    (hes : EntriesWF es) {r : TopKAccumulator} (hr : EntriesWF r) :
    EntriesWF (es.foldl mergeItem r) := by
  induction es generalizing r with
  | nil => exact hr
  | cons e es ih =>
    exact ih (fun f hf => hes f (List.mem_cons_of_mem _ hf))
      (entriesWF_mergeItem hr (hes e (List.mem_cons_self ..)))

theorem entriesWF_merge_accumulators {accs : List TopKAccumulator}
    (hWF : ∀ a ∈ accs, EntriesWF a) :
    EntriesWF (TopKUniques.merge_accumulators accs) := by
  rw [merge_accumulators_eq_foldl_flatten]
  refine entriesWF_foldl_mergeItem ?_ ?_
  · intro e he
    obtain ⟨a, ha, hea⟩ := List.mem_flatten.mp he
    exact hWF a ha e hea
  · intro e he
    simp at he

theorem entriesMassU_eq_zero_of_no_path {es : List (FeaturePath × ValueCounts)}
    {p : FeaturePath} (h : ∀ e ∈ es, e.1 ≠ p) (v : PyValue) :
    entriesMassU es p v = 0 := by
  induction es with
  | nil => rfl
  | cons e es ih =>
    rw [entriesMassU_cons, if_neg (h e (List.mem_cons_self ..)),
      ih fun f hf => h f (List.mem_cons_of_mem _ hf)]
    ring

theorem entriesMassW_eq_zero_of_no_path {es : List (FeaturePath × ValueCounts)}
    {p : FeaturePath} (h : ∀ e ∈ es, e.1 ≠ p) (v : PyValue) :
    entriesMassW es p v = 0 := by
  induction es with
  | nil => rfl
  | cons e es ih =>
    rw [entriesMassW_cons, if_neg (h e (List.mem_cons_self ..)),
      ih fun f hf => h f (List.mem_cons_of_mem _ hf)]
    ring

theorem entriesMassU_eq_accGetU {r : TopKAccumulator}
    (hnodup : (r.map Prod.fst).Nodup) (p : FeaturePath) (v : PyValue) :
    entriesMassU r p v = accGetU r p v := by
  induction r with
  | nil => rfl
  | cons e rest ih =>
    obtain ⟨k, vc⟩ := e
    simp only [List.map_cons, List.nodup_cons] at hnodup
    by_cases hkp : k = p
    · subst hkp
      rw [entriesMassU_cons, if_pos rfl,
        accGetU_of_lookup (show alookup ((k, vc) :: rest) k = some vc by
          simp [alookup]),
        entriesMassU_eq_zero_of_no_path (fun f hf hfp => hnodup.1 ?_) v, add_zero]
      exact hfp ▸ List.mem_map.mpr ⟨f, hf, rfl⟩
    · rw [entriesMassU_cons, if_neg hkp, ih hnodup.2, zero_add]
      simp only [accGetU, alookup, if_neg hkp]

theorem entriesMassW_eq_accGetW {r : TopKAccumulator}
    (hnodup : (r.map Prod.fst).Nodup) (p : FeaturePath) (v : PyValue) :
    entriesMassW r p v = accGetW r p v := by
  induction r with
  | nil => rfl
  | cons e rest ih =>
    obtain ⟨k, vc⟩ := e
    simp only [List.map_cons, List.nodup_cons] at hnodup
    by_cases hkp : k = p
    · subst hkp
      rw [entriesMassW_cons, if_pos rfl,
        accGetW_of_lookup (show alookup ((k, vc) :: rest) k = some vc by
          simp [alookup]),
        entriesMassW_eq_zero_of_no_path (fun f hf hfp => hnodup.1 ?_) v, add_zero]
      exact hfp ▸ List.mem_map.mpr ⟨f, hf, rfl⟩
    · rw [entriesMassW_cons, if_neg hkp, ih hnodup.2, zero_add]
      simp only [accGetW, alookup, if_neg hkp]

/-- The merge result contributes, as an input to a further merge, exactly the mass of
its own inputs (unweighted side, unconditional). -/
theorem entriesMassU_merge_accumulators (accs : List TopKAccumulator)
    (hWF : ∀ a ∈ accs, EntriesWF a) (p : FeaturePath) (v : PyValue) :
    entriesMassU (TopKUniques.merge_accumulators accs) p v =
      entriesMassU accs.flatten p v := by
  rw [entriesMassU_eq_accGetU (merge_accumulators_paths_nodup accs),
    merge_accumulators_getU accs hWF]

/-- At a path where all incoming items carry non-empty weighted counters, every item
of the merge result at that path has a non-empty weighted counter. -/
theorem merge_accumulators_item_weighted_ne (accs : List TopKAccumulator)
    (hWF : ∀ a ∈ accs, EntriesWF a) {p : FeaturePath}
    (hne : ∀ a ∈ accs, ∀ e ∈ a, e.1 = p → e.2.weighted_counts ≠ []) :
    ∀ e ∈ TopKUniques.merge_accumulators accs, e.1 = p →
      e.2.weighted_counts ≠ [] := by
  intro e he hep
  subst hep
  have hrw : PathRW (TopKUniques.merge_accumulators accs) e.1 := by
    rw [merge_accumulators_eq_foldl_flatten]
    refine (accGetW_foldl_mergeItem (p := e.1) accs.flatten ?_ ?_ [] ?_
      (PyValue.vInt 0)).2
    · intro f hf
      obtain ⟨a, ha, hfa⟩ := List.mem_flatten.mp hf
      exact (hWF a ha f hfa).2
    · intro f hf
      obtain ⟨a, ha, hfa⟩ := List.mem_flatten.mp hf
      exact hne a ha f hfa
    · intro vc hvc
      simp [alookup] at hvc
  exact hrw e.2 (alookup_of_mem_nodup (merge_accumulators_paths_nodup accs) he)

/-- At a path where all incoming items carry empty weighted counters, every item of the
merge result at that path has an empty weighted counter. -/
theorem merge_accumulators_item_weighted_empty (accs : List TopKAccumulator)
    {p : FeaturePath} (hemp : ∀ a ∈ accs, ∀ e ∈ a, e.1 = p → e.2.weighted_counts = []) :
    ∀ e ∈ TopKUniques.merge_accumulators accs, e.1 = p →
      e.2.weighted_counts = [] := by
  intro e he hep
  subst hep
  have hre : PathRE (TopKUniques.merge_accumulators accs) e.1 := by
    rw [merge_accumulators_eq_foldl_flatten]
    refine pathRE_foldl_mergeItem accs.flatten ?_ [] ?_
    · intro f hf
      obtain ⟨a, ha, hfa⟩ := List.mem_flatten.mp hf
      exact hemp a ha f hfa
    · intro vc hvc
      simp [alookup] at hvc
  exact hre e.2 (alookup_of_mem_nodup (merge_accumulators_paths_nodup accs) he)

/-- Weighted analogue of `entriesMassU_merge_accumulators`, under the all-or-nothing
proviso at `p`. -/
theorem entriesMassW_merge_accumulators (accs : List TopKAccumulator)
    (hWF : ∀ a ∈ accs, EntriesWF a) {p : FeaturePath}
    (hcond : WeightedMergeCond accs p) (v : PyValue) :
    entriesMassW (TopKUniques.merge_accumulators accs) p v =
      entriesMassW accs.flatten p v := by
  rw [entriesMassW_eq_accGetW (merge_accumulators_paths_nodup accs)]
  rcases hcond with hne | hemp
  · exact merge_accumulators_getW_nonempty accs hWF hne v
  · exact merge_accumulators_getW_empty accs hemp v

theorem weightedMergeCond_perm {accs accs' : List TopKAccumulator}
    (hperm : accs.Perm accs') {p : FeaturePath} (h : WeightedMergeCond accs p) :
    WeightedMergeCond accs' p := by
  rcases h with h | h
  · exact Or.inl fun a ha => h a (hperm.mem_iff.mpr ha)
  · exact Or.inr fun a ha => h a (hperm.mem_iff.mpr ha)

theorem weightedMergeCond_of_subset {accs accs' : List TopKAccumulator}
    {p : FeaturePath} (hsub : ∀ a ∈ accs', a ∈ accs) (h : WeightedMergeCond accs p) :
    WeightedMergeCond accs' p := by
  rcases h with h | h
  · exact Or.inl fun a ha => h a (hsub a ha)
  · exact Or.inr fun a ha => h a (hsub a ha)

/-- Claim C2 counterexample: `merge_accumulators` is not order-independent.  With one
accumulator whose weighted counter for path `f` is empty and another whose weighted
counter for `f` is non-empty (the very case the claim includes), merging in the two
orders yields different weighted counts for value `x`: the weighted counts of the
second accumulator are dropped when the first-merged accumulator's weighted counter is
empty (`if result[feature_path].weighted_counts:` in `merge_accumulators`). -/
theorem claim_C2_counterexample :
    accGetW (TopKUniques.merge_accumulators
        [[(FeaturePath.mk ["f"], ⟨[(PyValue.vText "x".data, 1)], []⟩)],
         [(FeaturePath.mk ["f"],
           ⟨[(PyValue.vText "x".data, 1)], [(PyValue.vText "x".data, 2)]⟩)]])
      (FeaturePath.mk ["f"]) (PyValue.vText "x".data) ≠
    accGetW (TopKUniques.merge_accumulators
        [[(FeaturePath.mk ["f"],
           ⟨[(PyValue.vText "x".data, 1)], [(PyValue.vText "x".data, 2)]⟩)],
         [(FeaturePath.mk ["f"], ⟨[(PyValue.vText "x".data, 1)], []⟩)]])
      (FeaturePath.mk ["f"]) (PyValue.vText "x".data) := by
  decide

/-- Three-way grouping independence of `merge_accumulators` on unweighted counts,
unconditional. -/
theorem merge_accumulators_grouping_getU (a b c : TopKAccumulator)
    (hwa : EntriesWF a) (hb : EntriesWF b) (hc : EntriesWF c)
    (p : FeaturePath) (v : PyValue) :
    accGetU (TopKUniques.merge_accumulators
        [TopKUniques.merge_accumulators [a, b], c]) p v =
      accGetU (TopKUniques.merge_accumulators [a, b, c]) p v ∧
    accGetU (TopKUniques.merge_accumulators
        [a, TopKUniques.merge_accumulators [b, c]]) p v =
      accGetU (TopKUniques.merge_accumulators [a, b, c]) p v := by
  have hWFab : ∀ x ∈ [a, b], EntriesWF x := by
    intro x hx
    rcases List.mem_cons.mp hx with rfl | hx'
    · exact hwa
    · rcases List.mem_cons.mp hx' with rfl | hx''
      · exact hb
      · simp at hx''
  have hWFbc : ∀ x ∈ [b, c], EntriesWF x := by
    intro x hx
    rcases List.mem_cons.mp hx with rfl | hx'
    · exact hb
    · rcases List.mem_cons.mp hx' with rfl | hx''
      · exact hc
      · simp at hx''
  have hWFabc : ∀ x ∈ [a, b, c], EntriesWF x := by
    intro x hx
    rcases List.mem_cons.mp hx with rfl | hx'
    · exact hwa
    · rcases List.mem_cons.mp hx' with rfl | hx''
      · exact hb
      · rcases List.mem_cons.mp hx'' with rfl | h3
        · exact hc
        · simp at h3
  have hWFmab : EntriesWF (TopKUniques.merge_accumulators [a, b]) :=
    entriesWF_merge_accumulators hWFab
  have hWFmbc : EntriesWF (TopKUniques.merge_accumulators [b, c]) :=
    entriesWF_merge_accumulators hWFbc
  have hWFl1 : ∀ x ∈ [TopKUniques.merge_accumulators [a, b], c], EntriesWF x := by
    intro x hx
    rcases List.mem_cons.mp hx with rfl | hx'
    · exact hWFmab
    · rcases List.mem_cons.mp hx' with rfl | hx''
      · exact hc
      · simp at hx''
  have hWFl2 : ∀ x ∈ [a, TopKUniques.merge_accumulators [b, c]], EntriesWF x := by
    intro x hx
    rcases List.mem_cons.mp hx with rfl | hx'
    · exact hwa
    · rcases List.mem_cons.mp hx' with rfl | hx''
      · exact hWFmbc
      · simp at hx''
  refine ⟨?_, ?_⟩
  · rw [merge_accumulators_getU _ hWFl1, merge_accumulators_getU _ hWFabc]
    have : ([TopKUniques.merge_accumulators [a, b], c]).flatten =
        TopKUniques.merge_accumulators [a, b] ++ c := by simp
    rw [this, entriesMassU_append,
      entriesMassU_merge_accumulators [a, b] hWFab]
    have hab : ([a, b] : List TopKAccumulator).flatten = a ++ b := by simp
    have habc : ([a, b, c] : List TopKAccumulator).flatten = a ++ (b ++ c) := by simp
    rw [hab, habc]
    simp only [entriesMassU_append]
    ring
  · rw [merge_accumulators_getU _ hWFl2, merge_accumulators_getU _ hWFabc]
    have : ([a, TopKUniques.merge_accumulators [b, c]]).flatten =
        a ++ TopKUniques.merge_accumulators [b, c] := by simp
    rw [this, entriesMassU_append,
      entriesMassU_merge_accumulators [b, c] hWFbc]
    have hbc : ([b, c] : List TopKAccumulator).flatten = b ++ c := by simp
    have habc : ([a, b, c] : List TopKAccumulator).flatten = a ++ (b ++ c) := by simp
    rw [hbc, habc]
    simp only [entriesMassU_append]

/-- Three-way grouping independence of `merge_accumulators` on weighted counts, under
the all-or-nothing proviso at the path. -/
theorem merge_accumulators_grouping_getW (a b c : TopKAccumulator)
    (hwa : EntriesWF a) (hb : EntriesWF b) (hc : EntriesWF c)
    (p : FeaturePath) (hcond3 : WeightedMergeCond [a, b, c] p) (v : PyValue) :
    accGetW (TopKUniques.merge_accumulators
        [TopKUniques.merge_accumulators [a, b], c]) p v =
      accGetW (TopKUniques.merge_accumulators [a, b, c]) p v ∧
    accGetW (TopKUniques.merge_accumulators
        [a, TopKUniques.merge_accumulators [b, c]]) p v =
      accGetW (TopKUniques.merge_accumulators [a, b, c]) p v := by
  have hWFab : ∀ x ∈ [a, b], EntriesWF x := by
    intro x hx
    rcases List.mem_cons.mp hx with rfl | hx'
    · exact hwa
    · rcases List.mem_cons.mp hx' with rfl | hx''
      · exact hb
      · simp at hx''
  have hWFbc : ∀ x ∈ [b, c], EntriesWF x := by
    intro x hx
    rcases List.mem_cons.mp hx with rfl | hx'
    · exact hb
    · rcases List.mem_cons.mp hx' with rfl | hx''
      · exact hc
      · simp at hx''
  have hWFabc : ∀ x ∈ [a, b, c], EntriesWF x := by
    intro x hx
    rcases List.mem_cons.mp hx with rfl | hx'
    · exact hwa
    · rcases List.mem_cons.mp hx' with rfl | hx''
      · exact hb
      · rcases List.mem_cons.mp hx'' with rfl | h3
        · exact hc
        · simp at h3
  have hWFmab : EntriesWF (TopKUniques.merge_accumulators [a, b]) :=
    entriesWF_merge_accumulators hWFab
  have hWFmbc : EntriesWF (TopKUniques.merge_accumulators [b, c]) :=
    entriesWF_merge_accumulators hWFbc
  have hWFl1 : ∀ x ∈ [TopKUniques.merge_accumulators [a, b], c], EntriesWF x := by
    intro x hx
    rcases List.mem_cons.mp hx with rfl | hx'
    · exact hWFmab
    · rcases List.mem_cons.mp hx' with rfl | hx''
      · exact hc
      · simp at hx''
  have hWFl2 : ∀ x ∈ [a, TopKUniques.merge_accumulators [b, c]], EntriesWF x := by
    intro x hx
    rcases List.mem_cons.mp hx with rfl | hx'
    · exact hwa
    · rcases List.mem_cons.mp hx' with rfl | hx''
      · exact hWFmbc
      · simp at hx''
  have hcondab : WeightedMergeCond [a, b] p :=
    weightedMergeCond_of_subset (by intro x hx; fin_cases hx <;> simp) hcond3
  have hcondbc : WeightedMergeCond [b, c] p :=
    weightedMergeCond_of_subset (by intro x hx; fin_cases hx <;> simp) hcond3
  have hcondl1 : WeightedMergeCond [TopKUniques.merge_accumulators [a, b], c] p := by
    rcases hcond3 with h | h
    · refine Or.inl ?_
      intro x hx
      rcases List.mem_cons.mp hx with rfl | hx'
      · exact merge_accumulators_item_weighted_ne [a, b] hWFab
          (fun y hy => h y (by fin_cases hy <;> simp))
      · rcases List.mem_cons.mp hx' with rfl | hx''
        · exact h x (by simp)
        · simp at hx''
    · refine Or.inr ?_
      intro x hx
      rcases List.mem_cons.mp hx with rfl | hx'
      · exact merge_accumulators_item_weighted_empty [a, b]
          (fun y hy => h y (by fin_cases hy <;> simp))
      · rcases List.mem_cons.mp hx' with rfl | hx''
        · exact h x (by simp)
        · simp at hx''
  have hcondl2 : WeightedMergeCond [a, TopKUniques.merge_accumulators [b, c]] p := by
    rcases hcond3 with h | h
    · refine Or.inl ?_
      intro x hx
      rcases List.mem_cons.mp hx with rfl | hx'
      · exact h x (by simp)
      · rcases List.mem_cons.mp hx' with rfl | hx''
        · exact merge_accumulators_item_weighted_ne [b, c] hWFbc
            (fun y hy => h y (by fin_cases hy <;> simp))
        · simp at hx''
    · refine Or.inr ?_
      intro x hx
      rcases List.mem_cons.mp hx with rfl | hx'
      · exact h x (by simp)
      · rcases List.mem_cons.mp hx' with rfl | hx''
        · exact merge_accumulators_item_weighted_empty [b, c]
            (fun y hy => h y (by fin_cases hy <;> simp))
        · simp at hx''
  have hgetW : ∀ (l : List TopKAccumulator), (∀ x ∈ l, EntriesWF x) →
      WeightedMergeCond l p →
      accGetW (TopKUniques.merge_accumulators l) p v = entriesMassW l.flatten p v := by
    intro l hl hcl
    rcases hcl with h | h
    · exact merge_accumulators_getW_nonempty l hl h v
    · exact merge_accumulators_getW_empty l h v
  refine ⟨?_, ?_⟩
  · rw [hgetW _ hWFl1 hcondl1, hgetW _ hWFabc hcond3]
    have : ([TopKUniques.merge_accumulators [a, b], c]).flatten =
        TopKUniques.merge_accumulators [a, b] ++ c := by simp
    rw [this, entriesMassW_append,
      entriesMassW_merge_accumulators [a, b] hWFab hcondab]
    have hab : ([a, b] : List TopKAccumulator).flatten = a ++ b := by simp
    have habc : ([a, b, c] : List TopKAccumulator).flatten = a ++ (b ++ c) := by simp
    rw [hab, habc]
    simp only [entriesMassW_append]
    ring
  · rw [hgetW _ hWFl2 hcondl2, hgetW _ hWFabc hcond3]
    have : ([a, TopKUniques.merge_accumulators [b, c]]).flatten =
        a ++ TopKUniques.merge_accumulators [b, c] := by simp
    rw [this, entriesMassW_append,
      entriesMassW_merge_accumulators [b, c] hWFbc hcondbc]
    have hbc : ([b, c] : List TopKAccumulator).flatten = b ++ c := by simp
    have habc : ([a, b, c] : List TopKAccumulator).flatten = a ++ (b ++ c) := by simp
    rw [hbc, habc]
    simp only [entriesMassW_append]

/-- Claim C2 (amended): `merge_accumulators` is order- and grouping-independent on
unweighted counts for every finite collection of well-formed accumulators,
unconditionally; on weighted counts it is order- and grouping-independent provided
that, at the feature path, the incoming accumulators' weighted counters are either all
non-empty or all empty (the unrestricted weighted claim fails when one accumulator's
weighted counter is empty while another's is non-empty — see the counterexample). -/
theorem claim_C2_amended (accs accs' : List TopKAccumulator)
    (hWF : ∀ a ∈ accs, EntriesWF a) (hperm : accs.Perm accs') (p : FeaturePath)
    (v : PyValue) :
    (accGetU (TopKUniques.merge_accumulators accs) p v =
       accGetU (TopKUniques.merge_accumulators accs') p v) ∧
    (∀ a b c : TopKAccumulator, EntriesWF a → EntriesWF b → EntriesWF c →
      accGetU (TopKUniques.merge_accumulators
          [TopKUniques.merge_accumulators [a, b], c]) p v =
        accGetU (TopKUniques.merge_accumulators [a, b, c]) p v ∧
      accGetU (TopKUniques.merge_accumulators
          [a, TopKUniques.merge_accumulators [b, c]]) p v =
        accGetU (TopKUniques.merge_accumulators [a, b, c]) p v) ∧
    (WeightedMergeCond accs p →
      accGetW (TopKUniques.merge_accumulators accs) p v =
        accGetW (TopKUniques.merge_accumulators accs') p v) ∧
    (∀ a b c : TopKAccumulator, EntriesWF a → EntriesWF b → EntriesWF c →
      WeightedMergeCond [a, b, c] p →
      accGetW (TopKUniques.merge_accumulators
          [TopKUniques.merge_accumulators [a, b], c]) p v =
        accGetW (TopKUniques.merge_accumulators [a, b, c]) p v ∧
      accGetW (TopKUniques.merge_accumulators
          [a, TopKUniques.merge_accumulators [b, c]]) p v =
        accGetW (TopKUniques.merge_accumulators [a, b, c]) p v) := by
  have hWF' : ∀ a ∈ accs', EntriesWF a := fun a ha => hWF a (hperm.mem_iff.mpr ha)
  have hflat : accs.flatten.Perm accs'.flatten := hperm.flatten
  refine ⟨?_, ?_, ?_, ?_⟩
  · rw [merge_accumulators_getU accs hWF, merge_accumulators_getU accs' hWF',
      entriesMassU_perm hflat]
  · intro a b c hwa hb hc
    exact merge_accumulators_grouping_getU a b c hwa hb hc p v
  · intro hcond
    have hcond' := weightedMergeCond_perm hperm hcond
    have h1 : accGetW (TopKUniques.merge_accumulators accs) p v =
        entriesMassW accs.flatten p v := by
      rcases hcond with h | h
      · exact merge_accumulators_getW_nonempty accs hWF h v
      · exact merge_accumulators_getW_empty accs h v
    have h2 : accGetW (TopKUniques.merge_accumulators accs') p v =
        entriesMassW accs'.flatten p v := by
      rcases hcond' with h | h
      · exact merge_accumulators_getW_nonempty accs' hWF' h v
      · exact merge_accumulators_getW_empty accs' h v
    rw [h1, h2, entriesMassW_perm hflat]
  · intro a b c hwa hb hc hcond3
    exact merge_accumulators_grouping_getW a b c hwa hb hc p hcond3 v

/-- Witness for the amended C2 at concrete accumulators: merging a two-accumulator
collection (both weighted counters non-empty at the path) in either order gives the same
unweighted and weighted counts. -/
theorem claim_C2_amended_witness :
    (∀ a ∈ [[(FeaturePath.mk ["f"],
          (⟨[(PyValue.vText "x".data, 1)], [(PyValue.vText "x".data, 2)]⟩ :
            ValueCounts))],
        [(FeaturePath.mk ["f"],
          (⟨[(PyValue.vText "y".data, 3)], [(PyValue.vText "y".data, 4)]⟩ :
            ValueCounts))]], EntriesWF a) ∧
    (accGetU (TopKUniques.merge_accumulators
        [[(FeaturePath.mk ["f"],
            ⟨[(PyValue.vText "x".data, 1)], [(PyValue.vText "x".data, 2)]⟩)],
         [(FeaturePath.mk ["f"],
            ⟨[(PyValue.vText "y".data, 3)], [(PyValue.vText "y".data, 4)]⟩)]])
        (FeaturePath.mk ["f"]) (PyValue.vText "x".data) =
      accGetU (TopKUniques.merge_accumulators
        [[(FeaturePath.mk ["f"],
            ⟨[(PyValue.vText "y".data, 3)], [(PyValue.vText "y".data, 4)]⟩)],
         [(FeaturePath.mk ["f"],
            ⟨[(PyValue.vText "x".data, 1)], [(PyValue.vText "x".data, 2)]⟩)]])
        (FeaturePath.mk ["f"]) (PyValue.vText "x".data) ∧
      accGetW (TopKUniques.merge_accumulators
        [[(FeaturePath.mk ["f"],
            ⟨[(PyValue.vText "x".data, 1)], [(PyValue.vText "x".data, 2)]⟩)],
         [(FeaturePath.mk ["f"],
            ⟨[(PyValue.vText "y".data, 3)], [(PyValue.vText "y".data, 4)]⟩)]])
        (FeaturePath.mk ["f"]) (PyValue.vText "x".data) =
      accGetW (TopKUniques.merge_accumulators
        [[(FeaturePath.mk ["f"],
            ⟨[(PyValue.vText "y".data, 3)], [(PyValue.vText "y".data, 4)]⟩)],
         [(FeaturePath.mk ["f"],
            ⟨[(PyValue.vText "x".data, 1)], [(PyValue.vText "x".data, 2)]⟩)]])
        (FeaturePath.mk ["f"]) (PyValue.vText "x".data)) :=
  ⟨by decide,
   (claim_C2_amended _ _ (by decide) (by decide) (FeaturePath.mk ["f"])
      (PyValue.vText "x".data)).1,
   (claim_C2_amended _ _ (by decide) (by decide) (FeaturePath.mk ["f"])
      (PyValue.vText "x".data)).2.2.1 (Or.inl (by decide))⟩

/-! ### Batch-size invariance of the top-k combiner (claim C3)

Splitting a batch into two row-aligned sub-batches: each column's cells and the weight
array are split at the same row index. -/

open TopKUniques (addColumn columnValueCounts columnEligible add_input
  create_accumulator)

/-- The first `k` rows of a column. -/
def takeColumn (k : Nat) (col : TopKColumn) : TopKColumn :=
  ⟨col.name, col.isStringType, col.cells.take k⟩

/-- The rows of a column from index `k` on. -/
def dropColumn (k : Nat) (col : TopKColumn) : TopKColumn :=
  ⟨col.name, col.isStringType, col.cells.drop k⟩

/-- The sub-batch of the first `k` rows, row alignment preserved. -/
def batchTake (b : TopKBatch) (k : Nat) : TopKBatch :=
  ⟨b.columns.map (takeColumn k), b.weights.map (List.take k)⟩

/-- The sub-batch of the rows from index `k` on, row alignment preserved. -/
def batchDrop (b : TopKBatch) (k : Nat) : TopKBatch :=
  ⟨b.columns.map (dropColumn k), b.weights.map (List.drop k)⟩

theorem columnEligible_takeColumn (cfg : TopKConfig) (k : Nat) (col : TopKColumn) :
    columnEligible cfg (takeColumn k col) ↔ columnEligible cfg col := Iff.rfl

theorem columnEligible_dropColumn (cfg : TopKConfig) (k : Nat) (col : TopKColumn) :
    columnEligible cfg (dropColumn k col) ↔ columnEligible cfg col := Iff.rfl

theorem columnValueCounts_weighted_eq (ws : List ℚ) (col : TopKColumn) :
    (columnValueCounts ws col).weighted_counts = cOfPairs (columnWeightPairs col ws) := by
  by_cases hw : ws.isEmpty
  · have hws : ws = [] := List.isEmpty_iff.mp hw
    subst hws
    rw [show (columnValueCounts [] col).weighted_counts = [] from by
      simp [columnValueCounts]]
    rw [show columnWeightPairs col [] = [] from by simp [columnWeightPairs]]
    rfl
  · simp [columnValueCounts, hw]

theorem flattenColumn_take_drop (k : Nat) (col : TopKColumn) :
    flattenColumn (takeColumn k col) ++ flattenColumn (dropColumn k col) =
      flattenColumn col := by
  rw [flattenColumn, flattenColumn, flattenColumn, takeColumn, dropColumn]
  show ((col.cells.take k).map cellValues).flatten ++
      ((col.cells.drop k).map cellValues).flatten = _
  rw [← List.flatten_append, ← List.map_append, List.take_append_drop]

theorem columnWeightPairs_take_drop (k : Nat) (col : TopKColumn) (ws : List ℚ) :
    columnWeightPairs (takeColumn k col) (ws.take k) ++
      columnWeightPairs (dropColumn k col) (ws.drop k) = columnWeightPairs col ws := by
  rw [columnWeightPairs, columnWeightPairs, columnWeightPairs, takeColumn, dropColumn]
  show (List.zipWith _ (col.cells.take k) (ws.take k)).flatten ++
      (List.zipWith _ (col.cells.drop k) (ws.drop k)).flatten = _
  rw [← List.zipWith_distrib_take, ← List.zipWith_distrib_drop, ← List.flatten_append,
    List.take_append_drop]

/-- Combining a column's two sub-batch `_ValueCounts` via the merge rule gives the
whole-batch `_ValueCounts`, provided the first sub-batch contributes at least one
weighted pair whenever the second one does. -/
theorem mergeValueCounts_columnValueCounts (k : Nat) (col : TopKColumn) (ws : List ℚ)
    (hcond : columnWeightPairs (dropColumn k col) (ws.drop k) ≠ [] →
      columnWeightPairs (takeColumn k col) (ws.take k) ≠ []) :
    mergeValueCounts (columnValueCounts (ws.take k) (takeColumn k col))
        (columnValueCounts (ws.drop k) (dropColumn k col)) =
      columnValueCounts ws col := by
  have hu : cUpdate (columnValueCounts (ws.take k) (takeColumn k col)).unweighted_counts
      (columnValueCounts (ws.drop k) (dropColumn k col)).unweighted_counts =
      (columnValueCounts ws col).unweighted_counts := by
    show cUpdate (counterOfList (flattenColumn (takeColumn k col)))
      (counterOfList (flattenColumn (dropColumn k col))) = _
    rw [counterOfList_append, flattenColumn_take_drop]
    rfl
  have hw1 := columnValueCounts_weighted_eq (ws.take k) (takeColumn k col)
  have hw2 := columnValueCounts_weighted_eq (ws.drop k) (dropColumn k col)
  have hww := columnValueCounts_weighted_eq ws col
  rw [mergeValueCounts, hu]
  by_cases hp1 : columnWeightPairs (takeColumn k col) (ws.take k) = []
  · have hp2 : columnWeightPairs (dropColumn k col) (ws.drop k) = [] := by
      by_contra hne
      exact hcond hne hp1
    have h1 : (columnValueCounts (ws.take k) (takeColumn k col)).weighted_counts = [] := by
      rw [hw1, hp1]; rfl
    rw [if_pos (by simp [h1])]
    have : (columnValueCounts ws col).weighted_counts = [] := by
      rw [hww, ← columnWeightPairs_take_drop k col ws, hp1, hp2]
      rfl
    rw [show (columnValueCounts ws col) =
        ⟨(columnValueCounts ws col).unweighted_counts,
          (columnValueCounts ws col).weighted_counts⟩ from rfl, this, h1]
  · have h1ne : (columnValueCounts (ws.take k) (takeColumn k col)).weighted_counts ≠ [] := by
      rw [hw1]
      intro hc
      exact hp1 ((counterFold_eq_nil_iff ..).mp hc).2
    rw [if_neg (by simpa [List.isEmpty_iff] using h1ne), hw1, hw2, cOfPairs_append,
      columnWeightPairs_take_drop]
    rw [show (columnValueCounts ws col) =
        ⟨(columnValueCounts ws col).unweighted_counts,
          (columnValueCounts ws col).weighted_counts⟩ from rfl, hww]

theorem featurePath_singleton_injective :
    Function.Injective (fun n => FeaturePath.mk [n]) := by
  intro a b h
  have := congrArg FeaturePath.steps h
  simpa using this

/-- `add_input` on a fresh accumulator builds, in column order, one item per eligible
column. -/
theorem foldl_addColumn_from_fresh (cfg : TopKConfig) (ws : List ℚ) :
    ∀ (cols : List TopKColumn) (acc : TopKAccumulator),
      (cols.map TopKColumn.name).Nodup →
      (∀ col ∈ cols, alookup acc (FeaturePath.mk [col.name]) = none) →
      cols.foldl (addColumn cfg ws) acc =
        acc ++ (cols.filter fun c => decide (columnEligible cfg c)).map
          (fun col => (FeaturePath.mk [col.name], columnValueCounts ws col)) := by
  intro cols
  induction cols with
  | nil => intro acc _ _; simp
  | cons col rest ih =>
    intro acc hnodup hfresh
    simp only [List.map_cons, List.nodup_cons] at hnodup
    by_cases helig : columnEligible cfg col
    · have hstep : addColumn cfg ws acc col =
          acc ++ [(FeaturePath.mk [col.name], columnValueCounts ws col)] := by
        rw [addColumn, if_pos helig, hfresh col (List.mem_cons_self ..)]
      rw [List.foldl_cons, hstep,
        ih (acc ++ [(FeaturePath.mk [col.name], columnValueCounts ws col)]) hnodup.2 ?_]
      · rw [List.append_assoc]
        congr 1
        rw [List.filter_cons, if_pos (by simpa using helig)]
        simp
      · intro col' hcol'
        rw [alookup_append_right acc _ _ (hfresh col' (List.mem_cons_of_mem _ hcol'))]
        rw [if_neg ?_]
        show ¬ FeaturePath.mk [col.name] = FeaturePath.mk [col'.name]
        intro hc
        exact hnodup.1 ((featurePath_singleton_injective hc) ▸
          List.mem_map.mpr ⟨col', hcol', rfl⟩)
    · rw [List.foldl_cons, show addColumn cfg ws acc col = acc from by
          rw [addColumn, if_neg helig],
        ih acc hnodup.2 (fun c hc => hfresh c (List.mem_cons_of_mem _ hc)),
        List.filter_cons, if_neg (by simpa using helig)]

theorem mergeItem_of_lookup_none {r : TopKAccumulator} {item : FeaturePath × ValueCounts}
    (h : alookup r item.1 = none) : mergeItem r item = r ++ [item] := by
  rw [mergeItem, h]

theorem mergeItem_of_lookup_some {r : TopKAccumulator} {item : FeaturePath × ValueCounts}
    {o : ValueCounts} (h : alookup r item.1 = some o) :
    mergeItem r item = aset r item.1 (mergeValueCounts o item.2) := by
  rw [mergeItem, h]

theorem foldl_mergeItem_fresh :
    ∀ (a : List (FeaturePath × ValueCounts)) (r : TopKAccumulator),
      (a.map Prod.fst).Nodup → (∀ e ∈ a, alookup r e.1 = none) →
      a.foldl mergeItem r = r ++ a := by
  intro a
  induction a with
  | nil => intro r _ _; simp
  | cons e rest ih =>
    intro r hnodup hfresh
    simp only [List.map_cons, List.nodup_cons] at hnodup
    rw [List.foldl_cons, mergeItem_of_lookup_none (hfresh e (List.mem_cons_self ..)),
      ih (r ++ [e]) hnodup.2 ?_]
    · rw [List.append_assoc]; rfl
    · intro e' he'
      rw [alookup_append_right r e e'.1 (hfresh e' (List.mem_cons_of_mem _ he'))]
      rw [if_neg ?_]
      intro hc
      exact hnodup.1 (hc ▸ List.mem_map.mpr ⟨e', he', rfl⟩)

theorem mergeItem_cons_ne {p0 : FeaturePath} {x : ValueCounts} {A : TopKAccumulator}
    {e : FeaturePath × ValueCounts} (hne : e.1 ≠ p0) :
    mergeItem ((p0, x) :: A) e = (p0, x) :: mergeItem A e := by
  have hl : alookup ((p0, x) :: A) e.1 = alookup A e.1 := by
    simp only [alookup, if_neg (fun h : p0 = e.1 => hne h.symm)]
  cases hA : alookup A e.1 with
  | none =>
    rw [mergeItem_of_lookup_none (hl.trans hA), mergeItem_of_lookup_none hA,
      List.cons_append]
  | some old =>
    rw [mergeItem_of_lookup_some (hl.trans hA), mergeItem_of_lookup_some hA]
    simp only [aset, if_neg (fun h : p0 = e.1 => hne h.symm)]

theorem foldl_mergeItem_cons_ne {p0 : FeaturePath} {x : ValueCounts} :
    ∀ (es : List (FeaturePath × ValueCounts)) (A : TopKAccumulator),
      (∀ e ∈ es, e.1 ≠ p0) →
      es.foldl mergeItem ((p0, x) :: A) = (p0, x) :: es.foldl mergeItem A := by
  intro es
  induction es with
  | nil => intro A _; rfl
  | cons e rest ih =>
    intro A hne
    rw [List.foldl_cons, mergeItem_cons_ne (hne e (List.mem_cons_self ..)),
      ih (mergeItem A e) (fun f hf => hne f (List.mem_cons_of_mem _ hf)),
      List.foldl_cons]

/-- Folding one index-aligned item list into another with the same keys combines the
values pairwise. -/
theorem foldl_mergeItem_two_maps {α : Type} (key : α → FeaturePath)
    (g1 g2 g12 : α → ValueCounts) :
    ∀ (xs : List α), (xs.map key).Nodup →
      (∀ x ∈ xs, mergeValueCounts (g1 x) (g2 x) = g12 x) →
      (xs.map fun x => (key x, g2 x)).foldl mergeItem
          (xs.map fun x => (key x, g1 x)) =
        xs.map fun x => (key x, g12 x) := by
  intro xs
  induction xs with
  | nil => intro _ _; rfl
  | cons x xs ih =>
    intro hnodup hcomb
    simp only [List.map_cons, List.nodup_cons] at hnodup
    rw [List.map_cons, List.map_cons, List.foldl_cons,
      mergeItem_of_lookup_some (o := g1 x) (by simp [alookup])]
    rw [show aset ((key x, g1 x) :: xs.map fun y => (key y, g1 y)) (key x)
        (mergeValueCounts (g1 x) (g2 x)) =
        (key x, mergeValueCounts (g1 x) (g2 x)) :: (xs.map fun y => (key y, g1 y)) from by
      simp [aset]]
    rw [hcomb x (List.mem_cons_self ..),
      foldl_mergeItem_cons_ne (xs.map fun y => (key y, g2 y)) _ ?_,
      ih hnodup.2 (fun y hy => hcomb y (List.mem_cons_of_mem _ hy)), List.map_cons]
    intro e he
    obtain ⟨y, hy, rfl⟩ := List.mem_map.mp he
    intro hc
    exact hnodup.1 (hc ▸ List.mem_map.mpr ⟨y, hy, rfl⟩)

theorem filter_eligible_map (cfg : TopKConfig) (g : TopKColumn → TopKColumn)
    (hg : ∀ col, columnEligible cfg (g col) ↔ columnEligible cfg col) :
    ∀ cols : List TopKColumn,
      (cols.map g).filter (fun c => decide (columnEligible cfg c)) =
        (cols.filter fun c => decide (columnEligible cfg c)).map g := by
  intro cols
  induction cols with
  | nil => rfl
  | cons col rest ih =>
    rw [List.map_cons, List.filter_cons, List.filter_cons]
    by_cases h : columnEligible cfg col
    · rw [if_pos (by simpa using (hg col).mpr h), if_pos (by simpa using h),
        List.map_cons, ih]
    · rw [if_neg (by simpa using fun hc => h ((hg col).mp hc)),
        if_neg (by simpa using h), ih]

theorem batchTake_weights (b : TopKBatch) (k : Nat) :
    ((batchTake b k).weights.getD []) = (b.weights.getD []).take k := by
  cases hw : b.weights <;> simp [batchTake, hw]

theorem batchDrop_weights (b : TopKBatch) (k : Nat) :
    ((batchDrop b k).weights.getD []) = (b.weights.getD []).drop k := by
  cases hw : b.weights <;> simp [batchDrop, hw]

instance instDecidableEqExceptTopK {ε α : Type} [DecidableEq ε] [DecidableEq α] :
    DecidableEq (Except ε α)
  | .error x, .error y => decidable_of_iff (x = y) (by simp)
  | .error _, .ok _ => isFalse (by simp)
  | .ok _, .error _ => isFalse (by simp)
  | .ok x, .ok y => decidable_of_iff (x = y) (by simp)

/-- Claim C3 counterexample: batch-size invariance fails for the weighted counts.  One
string column over two rows (row 1 null, row 2 holding value `x`) with weight column
`[1, 2]`, split between the rows: the first sub-batch's weighted counter for the feature
is created empty, so merging drops the second sub-batch's weighted counts
(`merge_accumulators`'s non-empty guard) and the merged accumulator extracts an output
without weighted stats, while folding the whole batch at once extracts one with them. -/
theorem claim_C3_counterexample :
    TopKUniques.extract_output ⟨[], 2, 1, 1, 1000⟩
        (TopKUniques.merge_accumulators
          [add_input ⟨[], 2, 1, 1, 1000⟩ create_accumulator
            (batchTake ⟨[⟨"f", true, [none, some [PyValue.vText "x".data]]⟩],
              some [1, 2]⟩ 1),
           add_input ⟨[], 2, 1, 1, 1000⟩ create_accumulator
            (batchDrop ⟨[⟨"f", true, [none, some [PyValue.vText "x".data]]⟩],
              some [1, 2]⟩ 1)]) ≠
      TopKUniques.extract_output ⟨[], 2, 1, 1, 1000⟩
        (add_input ⟨[], 2, 1, 1, 1000⟩ create_accumulator
          ⟨[⟨"f", true, [none, some [PyValue.vText "x".data]]⟩], some [1, 2]⟩) := by
  decide

/-- Claim C3 (amended): folding two row-aligned sub-batches separately and merging the
two accumulators agrees with folding the whole batch at once — accumulators equal and
hence `extract_output` results equal — provided that, for every eligible column, the
first sub-batch contributes at least one weighted (value, weight) pair whenever the
second does (in particular, always, when no weight feature is configured).  Without
that proviso the first sub-accumulator's weighted counter can be created empty and the
merge drops the second's weighted counts (see the counterexample). -/
theorem claim_C3_amended (cfg : TopKConfig) (b : TopKBatch) (k : Nat)
    (hnames : (b.columns.map TopKColumn.name).Nodup)
    (hcond : ∀ col ∈ b.columns, columnEligible cfg col →
      columnWeightPairs (dropColumn k col) ((b.weights.getD []).drop k) ≠ [] →
      columnWeightPairs (takeColumn k col) ((b.weights.getD []).take k) ≠ []) :
    TopKUniques.merge_accumulators
        [add_input cfg create_accumulator (batchTake b k),
         add_input cfg create_accumulator (batchDrop b k)] =
      add_input cfg create_accumulator b ∧
    TopKUniques.extract_output cfg (TopKUniques.merge_accumulators
        [add_input cfg create_accumulator (batchTake b k),
         add_input cfg create_accumulator (batchDrop b k)]) =
      TopKUniques.extract_output cfg (add_input cfg create_accumulator b) := by
  have hacc : TopKUniques.merge_accumulators
      [add_input cfg create_accumulator (batchTake b k),
       add_input cfg create_accumulator (batchDrop b k)] =
      add_input cfg create_accumulator b := by
    obtain ⟨cols, w⟩ := b
    simp only [TopKBatch.columns, TopKBatch.weights] at hnames hcond ⊢
    have hnames_take : ((cols.map (takeColumn k)).map TopKColumn.name).Nodup := by
      rw [List.map_map]
      exact hnames
    have hnames_drop : ((cols.map (dropColumn k)).map TopKColumn.name).Nodup := by
      rw [List.map_map]
      exact hnames
    have h1 : add_input cfg create_accumulator (batchTake ⟨cols, w⟩ k) =
        (cols.filter fun c => decide (columnEligible cfg c)).map
          (fun col => (FeaturePath.mk [col.name],
            columnValueCounts ((w.getD []).take k) (takeColumn k col))) := by
      rw [add_input]
      show (cols.map (takeColumn k)).foldl
        (addColumn cfg ((batchTake ⟨cols, w⟩ k).weights.getD [])) [] = _
      rw [batchTake_weights ⟨cols, w⟩ k,
        foldl_addColumn_from_fresh cfg _ _ [] hnames_take (fun _ _ => rfl),
        filter_eligible_map cfg (takeColumn k)
          (fun col => columnEligible_takeColumn cfg k col), List.map_map,
        List.nil_append]
      rfl
    have h2 : add_input cfg create_accumulator (batchDrop ⟨cols, w⟩ k) =
        (cols.filter fun c => decide (columnEligible cfg c)).map
          (fun col => (FeaturePath.mk [col.name],
            columnValueCounts ((w.getD []).drop k) (dropColumn k col))) := by
      rw [add_input]
      show (cols.map (dropColumn k)).foldl
        (addColumn cfg ((batchDrop ⟨cols, w⟩ k).weights.getD [])) [] = _
      rw [batchDrop_weights ⟨cols, w⟩ k,
        foldl_addColumn_from_fresh cfg _ _ [] hnames_drop (fun _ _ => rfl),
        filter_eligible_map cfg (dropColumn k)
          (fun col => columnEligible_dropColumn cfg k col), List.map_map,
        List.nil_append]
      rfl
    have hwhole : add_input cfg create_accumulator (⟨cols, w⟩ : TopKBatch) =
        (cols.filter fun c => decide (columnEligible cfg c)).map
          (fun col => (FeaturePath.mk [col.name],
            columnValueCounts (w.getD []) col)) := by
      rw [add_input]
      show cols.foldl (addColumn cfg ((⟨cols, w⟩ : TopKBatch).weights.getD [])) [] = _
      rw [foldl_addColumn_from_fresh cfg _ _ [] hnames (fun _ _ => rfl),
        List.nil_append]
    have hfilnames : ((cols.filter fun c =>
        decide (columnEligible cfg c)).map TopKColumn.name).Nodup :=
      ((List.filter_sublist cols).map TopKColumn.name).nodup hnames
    have hkeys : ((cols.filter fun c => decide (columnEligible cfg c)).map
        (fun col => FeaturePath.mk [col.name])).Nodup := by
      rw [show (fun col => FeaturePath.mk [col.name]) =
          ((fun n => FeaturePath.mk [n]) ∘ TopKColumn.name) from rfl, ← List.map_map]
      exact hfilnames.map featurePath_singleton_injective
    have hmergestep : TopKUniques.merge_accumulators
        [add_input cfg create_accumulator (batchTake ⟨cols, w⟩ k),
         add_input cfg create_accumulator (batchDrop ⟨cols, w⟩ k)] =
        (add_input cfg create_accumulator (batchDrop ⟨cols, w⟩ k)).foldl mergeItem
          ((add_input cfg create_accumulator (batchTake ⟨cols, w⟩ k)).foldl
            mergeItem []) := rfl
    rw [hmergestep, h1, h2, hwhole]
    rw [foldl_mergeItem_fresh _ [] (by
        rw [List.map_map]
        exact hkeys) (fun _ _ => rfl), List.nil_append]
    rw [foldl_mergeItem_two_maps (fun col => FeaturePath.mk [col.name]) _ _
      (fun col => columnValueCounts (w.getD []) col) _ hkeys ?_]
    intro col hcol
    obtain ⟨hmem, helig⟩ := List.mem_filter.mp hcol
    exact mergeValueCounts_columnValueCounts k col (w.getD [])
      (hcond col hmem (of_decide_eq_true helig))
  exact ⟨hacc, by rw [hacc]⟩

/-- Witness for the amended C3: a concrete weighted two-row batch split between its
rows, where both sub-batches contribute weighted pairs, folds and merges to the same
accumulator and output as the whole batch. -/
theorem claim_C3_amended_witness :
    TopKUniques.merge_accumulators
        [add_input ⟨[], 2, 1, 1, 1000⟩ create_accumulator
          (batchTake ⟨[⟨"f", true, [some [PyValue.vText "x".data],
            some [PyValue.vText "y".data]]⟩], some [1, 2]⟩ 1),
         add_input ⟨[], 2, 1, 1, 1000⟩ create_accumulator
          (batchDrop ⟨[⟨"f", true, [some [PyValue.vText "x".data],
            some [PyValue.vText "y".data]]⟩], some [1, 2]⟩ 1)] =
      add_input ⟨[], 2, 1, 1, 1000⟩ create_accumulator
        ⟨[⟨"f", true, [some [PyValue.vText "x".data],
          some [PyValue.vText "y".data]]⟩], some [1, 2]⟩ ∧
    TopKUniques.extract_output ⟨[], 2, 1, 1, 1000⟩
        (TopKUniques.merge_accumulators
          [add_input ⟨[], 2, 1, 1, 1000⟩ create_accumulator
            (batchTake ⟨[⟨"f", true, [some [PyValue.vText "x".data],
              some [PyValue.vText "y".data]]⟩], some [1, 2]⟩ 1),
           add_input ⟨[], 2, 1, 1, 1000⟩ create_accumulator
            (batchDrop ⟨[⟨"f", true, [some [PyValue.vText "x".data],
              some [PyValue.vText "y".data]]⟩], some [1, 2]⟩ 1)]) =
      TopKUniques.extract_output ⟨[], 2, 1, 1, 1000⟩
        (add_input ⟨[], 2, 1, 1, 1000⟩ create_accumulator
          ⟨[⟨"f", true, [some [PyValue.vText "x".data],
            some [PyValue.vText "y".data]]⟩], some [1, 2]⟩) :=
  claim_C3_amended ⟨[], 2, 1, 1, 1000⟩
    ⟨[⟨"f", true, [some [PyValue.vText "x".data], some [PyValue.vText "y".data]]⟩],
      some [1, 2]⟩ 1 (by decide) (by decide)

/-! ### The batching combiner wrapper (`_CombinerStatsGeneratorsCombineFn`)

A table is a list of rows over an abstract row type `R`; `merge.MergeTables`
concatenates the rows of the queued tables in order.  Wrapped dataset-level generators
follow the four-operation combiner contract (modelled from the spec's §4.2 — the
`stats_generator` base classes are repository code not under `src/`); each is a record
of its four operations over an accumulator type `A` and output type `O`. -/

/-- A dataset-level combiner generator: the four-operation contract. -/
structure CombinerStatsGenerator (R A O : Type) where
  create_accumulator : A
  add_input : A → List R → A
  merge_accumulators : List A → A
  extract_output : A → O

/-- `_CombinerStatsGeneratorsCombineFnAcc`: per-generator partial accumulators, the
pending-batches queue, and the pending-row counter. -/
structure CombineFnAcc (R A : Type) where
  partial_accumulators : List A
  input_tables : List (List R)
  curr_batch_size : Nat
deriving DecidableEq

namespace CombineFn

/-- `_CombinerStatsGeneratorsCombineFn.create_accumulator`. -/
def create_accumulator {R A O : Type} (gens : List (CombinerStatsGenerator R A O)) :
    CombineFnAcc R A :=
  ⟨gens.map (·.create_accumulator), [], 0⟩

/-- `_maybe_do_batch`: flush when forced with a positive row count, or when the row
count has reached the desired batch size.  The queued tables are concatenated
(`merge.MergeTables`; a single queued table is used as is, which coincides with
concatenation) and folded into every wrapped generator's accumulator, then the queue
and counter are reset. -/
def maybe_do_batch {R A O : Type} (gens : List (CombinerStatsGenerator R A O))
    (desired : Nat) (force : Bool) (acc : CombineFnAcc R A) : CombineFnAcc R A :=
  if (force = true ∧ 0 < acc.curr_batch_size) ∨ desired ≤ acc.curr_batch_size then
    { partial_accumulators :=
        List.zipWith (fun gen gacc => gen.add_input gacc acc.input_tables.flatten)
          gens acc.partial_accumulators,
      input_tables := [],
      curr_batch_size := 0 }
  else acc

/-- `_CombinerStatsGeneratorsCombineFn.add_input`. -/
def add_input {R A O : Type} (gens : List (CombinerStatsGenerator R A O))
    (desired : Nat) (acc : CombineFnAcc R A) (input_table : List R) :
    CombineFnAcc R A :=
  maybe_do_batch gens desired false
    { acc with
      input_tables := acc.input_tables ++ [input_table]
      curr_batch_size := acc.curr_batch_size + input_table.length }

/-- `_CombinerStatsGeneratorsCombineFn.compact` (the metrics counter increment has no
effect on the accumulator). -/
def compact {R A O : Type} (gens : List (CombinerStatsGenerator R A O))
    (desired : Nat) (acc : CombineFnAcc R A) : CombineFnAcc R A :=
  maybe_do_batch gens desired true acc

/-- `_CombinerStatsGeneratorsCombineFn.extract_output`: force-flush, then extract every
wrapped generator's output.  The source merges the resulting protos with
`_merge_dataset_feature_stats_protos`, a pure function of this output list, so equality
of the lists entails equality of the merged protos; the post-state of the (in place
mutated) accumulator is returned explicitly. -/
def extract_output {R A O : Type} (gens : List (CombinerStatsGenerator R A O))
    (desired : Nat) (acc : CombineFnAcc R A) : List O × CombineFnAcc R A :=
  let acc' := maybe_do_batch gens desired true acc
  (List.zipWith (fun gen gacc => gen.extract_output gacc) gens
    acc'.partial_accumulators, acc')

end CombineFn

/-- One driver operation against the combine fn: fold one table in, or compact. -/
inductive CombineFnOp (R : Type) where
  | add (input_table : List R)
  | compact

def applyCombineFnOp {R A O : Type} (gens : List (CombinerStatsGenerator R A O))
    (desired : Nat) (acc : CombineFnAcc R A) : CombineFnOp R → CombineFnAcc R A
  | .add t => CombineFn.add_input gens desired acc t
  | .compact => CombineFn.compact gens desired acc

def applyCombineFnOps {R A O : Type} (gens : List (CombinerStatsGenerator R A O))
    (desired : Nat) (ops : List (CombineFnOp R)) : CombineFnAcc R A :=
  ops.foldl (applyCombineFnOp gens desired) (CombineFn.create_accumulator gens)

/-- All rows handed to `add_input` over a sequence of operations, in order. -/
def combineFnOpsRows {R : Type} (ops : List (CombineFnOp R)) : List R :=
  (ops.filterMap fun op =>
    match op with
    | .add t => some t
    | .compact => none).flatten

theorem zipWith_map_self {α β γ : Type} (f : α → β → γ) (h : α → β) (l : List α) :
    List.zipWith f l (l.map h) = l.map fun a => f a (h a) := by
  induction l with
  | nil => rfl
  | cons a l ih => simp [ih]

/-- The pending-queue invariant: the partial accumulators are exactly the fold of a
common dispatched-tables sequence, the dispatched rows plus the queued rows are all the
rows received, and the counter equals the queued row count. -/
def CombineFnInv {R A O : Type} (gens : List (CombinerStatsGenerator R A O))
    (rows : List R) (acc : CombineFnAcc R A) : Prop :=
  ∃ dispatched : List (List R),
    acc.partial_accumulators =
      gens.map (fun g => dispatched.foldl g.add_input g.create_accumulator) ∧
    dispatched.flatten ++ acc.input_tables.flatten = rows ∧
    acc.curr_batch_size = acc.input_tables.flatten.length

theorem combineFnInv_create {R A O : Type}
    (gens : List (CombinerStatsGenerator R A O)) :
    CombineFnInv gens [] (CombineFn.create_accumulator gens) :=
  ⟨[], rfl, rfl, rfl⟩

theorem combineFnInv_maybe_do_batch {R A O : Type}
    {gens : List (CombinerStatsGenerator R A O)} {rows : List R}
    {acc : CombineFnAcc R A} (hinv : CombineFnInv gens rows acc) (desired : Nat)
    (force : Bool) :
    CombineFnInv gens rows (CombineFn.maybe_do_batch gens desired force acc) := by
  obtain ⟨dispatched, hpart, hrows, hbs⟩ := hinv
  rw [CombineFn.maybe_do_batch]
  by_cases hflush : (force = true ∧ 0 < acc.curr_batch_size) ∨
      desired ≤ acc.curr_batch_size
  · rw [if_pos hflush]
    refine ⟨dispatched ++ [acc.input_tables.flatten], ?_, ?_, rfl⟩
    · show List.zipWith _ gens acc.partial_accumulators = _
      rw [hpart, zipWith_map_self]
      refine List.map_congr_left fun g _ => ?_
      rw [List.foldl_append]
      rfl
    · show (dispatched ++ [acc.input_tables.flatten]).flatten ++ List.flatten [] = rows
      rw [List.flatten_append]
      simpa using hrows
  · rw [if_neg hflush]
    exact ⟨dispatched, hpart, hrows, hbs⟩

theorem combineFnInv_add_input {R A O : Type}
    {gens : List (CombinerStatsGenerator R A O)} {rows : List R}
    {acc : CombineFnAcc R A} (hinv : CombineFnInv gens rows acc) (desired : Nat)
    (t : List R) :
    CombineFnInv gens (rows ++ t) (CombineFn.add_input gens desired acc t) := by
  obtain ⟨dispatched, hpart, hrows, hbs⟩ := hinv
  rw [CombineFn.add_input]
  refine combineFnInv_maybe_do_batch ⟨dispatched, ?_, ?_, ?_⟩ desired false
  · exact hpart
  · show dispatched.flatten ++ (acc.input_tables ++ [t]).flatten = rows ++ t
    rw [List.flatten_append, ← List.append_assoc, hrows]
    simp
  · show acc.curr_batch_size + t.length = (acc.input_tables ++ [t]).flatten.length
    rw [List.flatten_append, List.length_append, hbs]
    simp

theorem combineFn_curr_batch_size_lt {R A O : Type}
    (gens : List (CombinerStatsGenerator R A O)) {desired : Nat} (hd : 0 < desired)
    (acc : CombineFnAcc R A) (force : Bool) :
    (CombineFn.maybe_do_batch gens desired force acc).curr_batch_size < desired ∨
      ((CombineFn.maybe_do_batch gens desired force acc) = acc ∧
        acc.curr_batch_size < desired) := by
  rw [CombineFn.maybe_do_batch]
  by_cases hflush : (force = true ∧ 0 < acc.curr_batch_size) ∨
      desired ≤ acc.curr_batch_size
  · rw [if_pos hflush]
    exact Or.inl hd
  · rw [if_neg hflush]
    push_neg at hflush
    exact Or.inr ⟨rfl, hflush.2⟩

theorem combineFn_compact_batch_size {R A O : Type}
    (gens : List (CombinerStatsGenerator R A O)) (desired : Nat)
    (acc : CombineFnAcc R A) :
    (CombineFn.compact gens desired acc).curr_batch_size = 0 ∧
    (0 < acc.curr_batch_size →
      (CombineFn.compact gens desired acc).input_tables = [] ∧
      (CombineFn.compact gens desired acc).partial_accumulators =
        List.zipWith (fun gen gacc => gen.add_input gacc acc.input_tables.flatten)
          gens acc.partial_accumulators) := by
  rw [CombineFn.compact, CombineFn.maybe_do_batch]
  by_cases hflush : ((true : Bool) = true ∧ 0 < acc.curr_batch_size) ∨
      desired ≤ acc.curr_batch_size
  · rw [if_pos hflush]
    exact ⟨rfl, fun _ => ⟨rfl, rfl⟩⟩
  · rw [if_neg hflush]
    push_neg at hflush
    have h0 : acc.curr_batch_size = 0 := by
      have := hflush.1 rfl
      omega
    exact ⟨h0, fun hpos => absurd h0 (by omega)⟩

/-- Batch-size normalization after any operation sequence. -/
theorem applyCombineFnOps_batch_size_lt {R A O : Type}
    (gens : List (CombinerStatsGenerator R A O)) {desired : Nat} (hd : 0 < desired)
    (ops : List (CombineFnOp R)) :
    (applyCombineFnOps gens desired ops).curr_batch_size < desired := by
  rw [applyCombineFnOps]
  induction ops using List.reverseRecOn with
  | nil => exact hd
  | append_singleton ops op ih =>
    rw [List.foldl_append, List.foldl_cons, List.foldl_nil]
    cases op with
    | add t =>
      show (CombineFn.add_input gens desired _ t).curr_batch_size < desired
      rw [CombineFn.add_input]
      rcases combineFn_curr_batch_size_lt gens hd _ false with h | h
      · exact h
      · rw [h.1]
        exact h.2
    | compact =>
      show (CombineFn.compact gens desired _).curr_batch_size < desired
      rw [(combineFn_compact_batch_size gens desired _).1]
      exact hd

theorem combineFnInv_applyOps {R A O : Type}
    (gens : List (CombinerStatsGenerator R A O)) (desired : Nat)
    (ops : List (CombineFnOp R)) :
    CombineFnInv gens (combineFnOpsRows ops) (applyCombineFnOps gens desired ops) := by
  rw [applyCombineFnOps]
  induction ops using List.reverseRecOn with
  | nil => exact combineFnInv_create gens
  | append_singleton ops op ih =>
    rw [List.foldl_append, List.foldl_cons, List.foldl_nil]
    cases op with
    | add t =>
      have h := combineFnInv_add_input ih desired t
      rwa [show combineFnOpsRows (ops ++ [CombineFnOp.add t]) =
        combineFnOpsRows ops ++ t from by simp [combineFnOpsRows]]
    | compact =>
      have h := combineFnInv_maybe_do_batch ih desired true
      rwa [show combineFnOpsRows (ops ++ [CombineFnOp.compact]) =
        combineFnOpsRows ops from by simp [combineFnOpsRows]]

/-- A concrete wrapped generator used to evaluate the combine fn at concrete inputs:
it simply concatenates all rows it is ever given. -/
def recordingGen : CombinerStatsGenerator Nat (List Nat) (List Nat) :=
  ⟨[], fun a t => a ++ t, fun accs => accs.flatten, fun a => a⟩

/-- Claim C4 counterexample: a forced flush with a non-empty queue does not always
concatenate-and-fold.  After `add_input` of a zero-row table the queue is non-empty
(it holds that table) with a zero row counter, and `compact` — a forced flush — leaves
the queue untouched because `_maybe_do_batch` triggers on `batch_size > 0`, not on
queue non-emptiness as the claim states. -/
theorem claim_C4_counterexample :
    (CombineFn.compact [recordingGen] 1000
      (CombineFn.add_input [recordingGen] 1000
        (CombineFn.create_accumulator [recordingGen]) [])).input_tables ≠ [] := by
  decide

/-- Claim C4 (amended): the pending-queue invariant holds across every operation
sequence: the per-generator partial accumulators are exactly the fold of one common
sequence of dispatched (concatenated) tables, the dispatched rows followed by the
queued rows are precisely all rows received in order (the queue never silently loses
batches and is only cleared after its contents were folded into every wrapped
generator), the counter always equals the queued row count, the counter stays below the
desired batch size after every operation, and a forced flush folds-then-clears whenever
the pending row count is non-zero (zero-row batches may remain queued; the claim's
"non-empty queue" trigger holds only in this row-count form). -/
theorem claim_C4_amended {R A O : Type} (gens : List (CombinerStatsGenerator R A O))
    (desired : Nat) (hd : 0 < desired) (ops : List (CombineFnOp R)) :
    (∃ dispatched : List (List R),
      (applyCombineFnOps gens desired ops).partial_accumulators =
        gens.map (fun g => dispatched.foldl g.add_input g.create_accumulator) ∧
      dispatched.flatten ++ (applyCombineFnOps gens desired ops).input_tables.flatten =
        combineFnOpsRows ops ∧
      (applyCombineFnOps gens desired ops).curr_batch_size =
        (applyCombineFnOps gens desired ops).input_tables.flatten.length) ∧
    (applyCombineFnOps gens desired ops).curr_batch_size < desired ∧
    (∀ acc : CombineFnAcc R A,
      (CombineFn.compact gens desired acc).curr_batch_size = 0 ∧
      (0 < acc.curr_batch_size →
        (CombineFn.compact gens desired acc).input_tables = [] ∧
        (CombineFn.compact gens desired acc).partial_accumulators =
          List.zipWith (fun gen gacc => gen.add_input gacc acc.input_tables.flatten)
            gens acc.partial_accumulators)) :=
  ⟨combineFnInv_applyOps gens desired ops,
   applyCombineFnOps_batch_size_lt gens hd ops,
   fun acc => combineFn_compact_batch_size gens desired acc⟩

/-- Witness for the amended C4 at a concrete run: one generator, desired batch size 2,
two one-row tables then a compact. -/
theorem claim_C4_amended_witness :
    (∃ dispatched : List (List Nat),
      (applyCombineFnOps [recordingGen] 2
          [CombineFnOp.add [7], CombineFnOp.add [8], CombineFnOp.compact]
        ).partial_accumulators =
        [recordingGen].map
          (fun g => dispatched.foldl g.add_input g.create_accumulator) ∧
      dispatched.flatten ++ (applyCombineFnOps [recordingGen] 2
          [CombineFnOp.add [7], CombineFnOp.add [8], CombineFnOp.compact]
        ).input_tables.flatten =
        combineFnOpsRows
          [CombineFnOp.add [7], CombineFnOp.add [8], CombineFnOp.compact] ∧
      (applyCombineFnOps [recordingGen] 2
          [CombineFnOp.add [7], CombineFnOp.add [8], CombineFnOp.compact]
        ).curr_batch_size =
        (applyCombineFnOps [recordingGen] 2
          [CombineFnOp.add [7], CombineFnOp.add [8], CombineFnOp.compact]
        ).input_tables.flatten.length) ∧
    (applyCombineFnOps [recordingGen] 2
        [CombineFnOp.add [7], CombineFnOp.add [8], CombineFnOp.compact]
      ).curr_batch_size < 2 :=
  ⟨(claim_C4_amended [recordingGen] 2 (by decide)
      [CombineFnOp.add [7], CombineFnOp.add [8], CombineFnOp.compact]).1,
   (claim_C4_amended [recordingGen] 2 (by decide)
      [CombineFnOp.add [7], CombineFnOp.add [8], CombineFnOp.compact]).2.1⟩

/-- Claim C9 counterexample: the first `extract_output` call does not always leave the
queue empty.  With a zero-row table pending, the forced flush does not trigger
(`batch_size > 0` fails), so the queue still holds that batch after the call —
contradicting the claim's "after which the accumulator's queue is empty". -/
theorem claim_C9_counterexample :
    ((CombineFn.extract_output [recordingGen] 1000
      (CombineFn.add_input [recordingGen] 1000
        (CombineFn.create_accumulator [recordingGen]) [])).2).input_tables ≠ [] := by
  decide

theorem maybe_do_batch_force_idem {R A O : Type}
    (gens : List (CombinerStatsGenerator R A O)) {desired : Nat} (hd : 0 < desired)
    (acc : CombineFnAcc R A) :
    CombineFn.maybe_do_batch gens desired true
        (CombineFn.maybe_do_batch gens desired true acc) =
      CombineFn.maybe_do_batch gens desired true acc := by
  by_cases hflush : ((true : Bool) = true ∧ 0 < acc.curr_batch_size) ∨
      desired ≤ acc.curr_batch_size
  · rw [show CombineFn.maybe_do_batch gens desired true acc =
        { partial_accumulators := List.zipWith
            (fun gen gacc => gen.add_input gacc acc.input_tables.flatten)
            gens acc.partial_accumulators,
          input_tables := [], curr_batch_size := 0 } from by
      rw [CombineFn.maybe_do_batch, if_pos hflush]]
    rw [CombineFn.maybe_do_batch, if_neg (by simp; omega)]
  · rw [show CombineFn.maybe_do_batch gens desired true acc = acc from by
      rw [CombineFn.maybe_do_batch, if_neg hflush]]
    rw [CombineFn.maybe_do_batch, if_neg hflush]

/-- Claim C9 (amended): calling `extract_output` twice on the same accumulator is safe,
both calls return the same per-generator output list (hence the same merged proto) and
the second call leaves the accumulator unchanged; the first call leaves the queue empty
whenever the pending row count was non-zero (a queue holding only zero-row batches is
left untouched, not emptied as the claim states). -/
theorem claim_C9_amended {R A O : Type} (gens : List (CombinerStatsGenerator R A O))
    (desired : Nat) (hd : 0 < desired) (acc : CombineFnAcc R A) :
    (CombineFn.extract_output gens desired
        ((CombineFn.extract_output gens desired acc).2)).1 =
      (CombineFn.extract_output gens desired acc).1 ∧
    (CombineFn.extract_output gens desired
        ((CombineFn.extract_output gens desired acc).2)).2 =
      (CombineFn.extract_output gens desired acc).2 ∧
    (0 < acc.curr_batch_size →
      ((CombineFn.extract_output gens desired acc).2).input_tables = [] ∧
      ((CombineFn.extract_output gens desired acc).2).curr_batch_size = 0) := by
  have hsnd : (CombineFn.extract_output gens desired acc).2 =
      CombineFn.maybe_do_batch gens desired true acc := rfl
  have hidem := maybe_do_batch_force_idem gens hd acc
  refine ⟨?_, ?_, ?_⟩
  · show List.zipWith _ gens (CombineFn.maybe_do_batch gens desired true
      ((CombineFn.extract_output gens desired acc).2)).partial_accumulators = _
    rw [hsnd, hidem]
    rfl
  · show CombineFn.maybe_do_batch gens desired true
      ((CombineFn.extract_output gens desired acc).2) = _
    rw [hsnd, hidem]
  · intro hpos
    rw [hsnd, show CombineFn.maybe_do_batch gens desired true acc =
        { partial_accumulators := List.zipWith
            (fun gen gacc => gen.add_input gacc acc.input_tables.flatten)
            gens acc.partial_accumulators,
          input_tables := [], curr_batch_size := 0 } from by
      rw [CombineFn.maybe_do_batch, if_pos (Or.inl ⟨rfl, hpos⟩)]]
    exact ⟨rfl, rfl⟩

/-- Witness for the amended C9 at a concrete accumulator with one pending one-row
table. -/
theorem claim_C9_amended_witness :
    (CombineFn.extract_output [recordingGen] 2
        ((CombineFn.extract_output [recordingGen] 2
          (CombineFn.add_input [recordingGen] 2
            (CombineFn.create_accumulator [recordingGen]) [7])).2)).1 =
      (CombineFn.extract_output [recordingGen] 2
        (CombineFn.add_input [recordingGen] 2
          (CombineFn.create_accumulator [recordingGen]) [7])).1 ∧
    (CombineFn.extract_output [recordingGen] 2
        ((CombineFn.extract_output [recordingGen] 2
          (CombineFn.add_input [recordingGen] 2
            (CombineFn.create_accumulator [recordingGen]) [7])).2)).2 =
      (CombineFn.extract_output [recordingGen] 2
        (CombineFn.add_input [recordingGen] 2
          (CombineFn.create_accumulator [recordingGen]) [7])).2 ∧
    (0 < (CombineFn.add_input [recordingGen] 2
        (CombineFn.create_accumulator [recordingGen]) [7]).curr_batch_size →
      ((CombineFn.extract_output [recordingGen] 2
        (CombineFn.add_input [recordingGen] 2
          (CombineFn.create_accumulator [recordingGen]) [7])).2).input_tables = [] ∧
      ((CombineFn.extract_output [recordingGen] 2
        (CombineFn.add_input [recordingGen] 2
          (CombineFn.create_accumulator [recordingGen]) [7])).2).curr_batch_size = 0) :=
  claim_C9_amended [recordingGen] 2 (by decide)
    (CombineFn.add_input [recordingGen] 2
      (CombineFn.create_accumulator [recordingGen]) [7])

/-! ### The feature-wrapper generator (`CombinerFeatureStatsWrapperGenerator`)

Wraps single-feature generators, keyed by feature path.  A single-feature generator
follows the same four-operation contract over one column (`C` is the column payload
type, `FA` the generator's accumulator type, `FO` its output; the
`CombinerFeatureStatsGenerator` base class is repository code not under `src/`,
modelled from the spec's §4.2).  A table is a list of named columns
(`input_table.itercolumns()` yields name and data).  The ambient `random.random()`
draw of `add_input` is passed in explicitly as `draw`. -/

structure CombinerFeatureStatsGenerator (C FA FO : Type) where
  create_accumulator : FA
  add_input : FA → C → FA
  merge_accumulators : List FA → FA
  extract_output : FA → FO

/-- `wrapper_accumulator[feature_path][i]` is generator `i`'s accumulator for that
path. -/
abbrev WrapperAccumulator (FA : Type) := List (FeaturePath × List FA)

namespace FeatureWrapper

/-- `CombinerFeatureStatsWrapperGenerator.create_accumulator`. -/
def create_accumulator {FA : Type} : WrapperAccumulator FA := []

/-- `_perhaps_initialize_for_feature_path`. -/
def perhaps_initialize_for_feature_path {C FA FO : Type}
    (gens : List (CombinerFeatureStatsGenerator C FA FO))
    (wrapper_accumulator : WrapperAccumulator FA) (feature_path : FeaturePath) :
    WrapperAccumulator FA :=
  if (alookup wrapper_accumulator feature_path).isSome then wrapper_accumulator
  else wrapper_accumulator ++ [(feature_path, gens.map (·.create_accumulator))]

/-- The per-column body of `add_input`: skip the weight feature, initialize the path on
first sight, then set every generator's slot to
`generator.add_input(generator.create_accumulator(), feature_column)` — note the slot
is overwritten with a fold of a fresh accumulator, as the source does. -/
def addInputColumn {C FA FO : Type} (gens : List (CombinerFeatureStatsGenerator C FA FO))
    (weight_feature : Option String) (acc : WrapperAccumulator FA)
    (col : String × C) : WrapperAccumulator FA :=
  if some col.1 = weight_feature then acc
  else
    aset (perhaps_initialize_for_feature_path gens acc (FeaturePath.mk [col.1]))
      (FeaturePath.mk [col.1])
      (gens.map fun gen => gen.add_input gen.create_accumulator col.2)

/-- `CombinerFeatureStatsWrapperGenerator.add_input`: one sampling coin flip per batch
(skip the whole batch when a sample rate is configured and the draw is at most it),
then the per-column loop over the whole table. -/
def add_input {C FA FO : Type} (gens : List (CombinerFeatureStatsGenerator C FA FO))
    (weight_feature : Option String) (sample_rate : Option ℚ) (draw : ℚ)
    (wrapper_accumulator : WrapperAccumulator FA)
    (input_table : List (String × C)) : WrapperAccumulator FA :=
  match sample_rate with
  | some r =>
    if draw ≤ r then wrapper_accumulator
    else input_table.foldl (addInputColumn gens weight_feature) wrapper_accumulator
  | none => input_table.foldl (addInputColumn gens weight_feature) wrapper_accumulator

/-- `CombinerFeatureStatsWrapperGenerator.merge_accumulators`: per path, per generator
index, delegate to the generator's own merge of the two slots. -/
def merge_accumulators {C FA FO : Type}
    (gens : List (CombinerFeatureStatsGenerator C FA FO))
    (wrapper_accumulators : List (WrapperAccumulator FA)) : WrapperAccumulator FA :=
  wrapper_accumulators.foldl
    (fun result wrapper_accumulator =>
      wrapper_accumulator.foldl
        (fun result item =>
          let result := perhaps_initialize_for_feature_path gens result item.1
          match alookup result item.1 with
          | none => result
          | some slots =>
            aset result item.1
              (List.zipWith (fun gen pr => gen.merge_accumulators [pr.1, pr.2])
                gens (slots.zip item.2)))
        result)
    []

end FeatureWrapper

/-- A concrete single-feature generator counting the values it has seen: its column
payload is the list of the column's values. -/
def countValuesGen : CombinerFeatureStatsGenerator (List ℚ) Nat Nat :=
  ⟨0, fun a col => a + col.length, fun accs => accs.foldl (· + ·) 0, fun a => a⟩

/-- Claim C1, evaluated at the failing input: feeding the wrapper two batches that both
contain feature column `f` (3 values, then 2 values) leaves the per-feature slot of a
value-counting generator at 2 — the fold of only the last batch — instead of the 5 that
folding into the existing slot would give.  `add_input` passes
`generator.create_accumulator()` instead of `wrapper_accumulator[feature_path][index]`
as the accumulator to fold into (stats_impl.py line 778), so per-feature state is
replaced by each batch rather than accumulated. -/
theorem claim_C1_code_bug :
    alookup
      (FeatureWrapper.add_input [countValuesGen] none none 0
        (FeatureWrapper.add_input [countValuesGen] none none 0
          FeatureWrapper.create_accumulator [("f", [1, 2, 3])])
        [("f", [4, 5])])
      (FeaturePath.mk ["f"]) = some [2] ∧
    (2 : Nat) ≠ 3 + 2 := by
  decide

/-- Claim C10: the sampling coin flip of `CombinerFeatureStatsWrapperGenerator.add_input`
is per batch: with a configured sample rate `r`, the batch is skipped (accumulator
returned unchanged) exactly when the drawn number is at most `r`, and otherwise the
whole batch is processed identically to the unsampled path — hence, for a uniform draw
on [0, 1), a batch is skipped with probability `r` and processed with probability
`1 - r`. -/
theorem claim_C10_sampling_per_batch {C FA FO : Type}
    (gens : List (CombinerFeatureStatsGenerator C FA FO))
    (weight_feature : Option String) (r draw : ℚ)
    (wrapper_accumulator : WrapperAccumulator FA)
    (input_table : List (String × C)) :
    (draw ≤ r →
      FeatureWrapper.add_input gens weight_feature (some r) draw
        wrapper_accumulator input_table = wrapper_accumulator) ∧
    (¬ draw ≤ r →
      FeatureWrapper.add_input gens weight_feature (some r) draw
          wrapper_accumulator input_table =
        FeatureWrapper.add_input gens weight_feature none draw
          wrapper_accumulator input_table) := by
  constructor
  · intro h
    rw [FeatureWrapper.add_input]
    simp [h]
  · intro h
    rw [FeatureWrapper.add_input]
    simp [h]
    rfl

/-- Witness for C10: with sample rate 1, a draw of 0 skips the batch; a draw of 2
processes it exactly like the unsampled path. -/
theorem claim_C10_witness :
    (FeatureWrapper.add_input [countValuesGen] none (some 1) 0 []
      [("f", [1, 2])] = []) ∧
    (FeatureWrapper.add_input [countValuesGen] none (some 1) 2 []
        [("f", [1, 2])] =
      FeatureWrapper.add_input [countValuesGen] none none 2 [] [("f", [1, 2])]) :=
  ⟨(claim_C10_sampling_per_batch [countValuesGen] none 1 0 [] [("f", [1, 2])]).1
      (by decide),
   (claim_C10_sampling_per_batch [countValuesGen] none 1 2 [] [("f", [1, 2])]).2
      (by decide)⟩

/-! ### Example-count reconciliation (`_update_example_and_missing_count`)

The statistics-proto fields this step touches: per feature, the active oneof
(`num_stats` or `string_stats`) with its `common_stats` (integer non-missing/missing
counts plus float weighted counts), and named custom stats on the synthetic
Num-Examples entry. -/

structure WeightedCommonStats where
  num_non_missing : ℚ
  num_missing : ℚ
deriving DecidableEq

structure CommonStats where
  num_non_missing : Nat
  num_missing : Int
  weighted_common_stats : WeightedCommonStats
deriving DecidableEq

/-- The `stats` oneof of `FeatureNameStatistics`, as far as reconciliation reads it:
`WhichOneof('stats') == 'num_stats'` selects `num_stats.common_stats`, anything else
`string_stats.common_stats`. -/
inductive FeatureStatsOneof where
  | numStats (common_stats : CommonStats)
  | stringStats (common_stats : CommonStats)
deriving DecidableEq

def FeatureStatsOneof.common_stats : FeatureStatsOneof → CommonStats
  | .numStats cs => cs
  | .stringStats cs => cs

def FeatureStatsOneof.withCommonStats : FeatureStatsOneof → CommonStats → FeatureStatsOneof
  | .numStats _, cs => .numStats cs
  | .stringStats _, cs => .stringStats cs

structure FeatureNameStatisticsCounts where
  path : FeaturePath
  stats : FeatureStatsOneof
  custom_stats : List (String × ℚ)
deriving DecidableEq

structure DatasetFeatureStatisticsCounts where
  features : List FeatureNameStatisticsCounts
  num_examples : Int
deriving DecidableEq

/-- `_DUMMY_FEATURE_PATH`. -/
def dummyFeaturePath : FeaturePath := ⟨["__TFDV_INTERNAL_FEATURE__"]⟩

/-- `_NUM_EXAMPLES_KEY`. -/
def numExamplesKey : String := "__NUM_EXAMPLES__"

/-- `_WEIGHTED_NUM_EXAMPLES_KEY`. -/
def weightedNumExamplesKey : String := "__WEIGHTED_NUM_EXAMPLES__"

/-- Modelled from the spec: `stats_util.get_feature_stats` (repository code not under
`src/`) extracts the feature entry with the given path ("the synthetic Num-Examples
entry is extracted"); absence is an error in the source. -/
def get_feature_stats (stats : DatasetFeatureStatisticsCounts) (path : FeaturePath) :
    Option FeatureNameStatisticsCounts :=
  stats.features.find? fun f => decide (f.path = path)

/-- Modelled from the spec: `stats_util.get_custom_stats` (repository code not under
`src/`) reads the named custom statistic off a feature entry. -/
def get_custom_stats (f : FeatureNameStatisticsCounts) (name : String) : Option ℚ :=
  (f.custom_stats.find? fun cs => decide (cs.1 = name)).map (·.2)

/-- Python `int(...)`: truncation toward zero. -/
def pyInt (q : ℚ) : Int := if 0 ≤ q then ⌊q⌋ else -⌊-q⌋

/-- `stats.features.remove(dummy_feature)`: drop the first entry with the given path. -/
def removeFeature : List FeatureNameStatisticsCounts → FeaturePath →
    List FeatureNameStatisticsCounts
  | [], _ => []
  | f :: rest, path =>
    if f.path = path then rest else f :: removeFeature rest path

/-- The per-feature update applied when the assert passes: missing count becomes
`int(num_examples - num_non_missing)`, and when a weighted example count is present
(non-zero) the weighted missing count becomes the weighted total minus the weighted
non-missing count. -/
def reviseFeatureCounts (num_examples weighted_num_examples : ℚ)
    (f : FeatureNameStatisticsCounts) : FeatureNameStatisticsCounts :=
  let cs := f.stats.common_stats
  let cs := { cs with num_missing := pyInt (num_examples - (cs.num_non_missing : ℚ)) }
  let cs :=
    if weighted_num_examples ≠ 0 then
      { cs with weighted_common_stats :=
        { cs.weighted_common_stats with num_missing :=
            weighted_num_examples - cs.weighted_common_stats.num_non_missing } }
    else cs
  { f with stats := f.stats.withCommonStats cs }

/-- One iteration of the reconciliation loop: the `assert num_examples >=
common_stats.num_non_missing` raises when violated, otherwise the counts are revised. -/
def updateFeatureCounts (num_examples weighted_num_examples : ℚ)
    (f : FeatureNameStatisticsCounts) : Except String FeatureNameStatisticsCounts :=
  if (f.stats.common_stats.num_non_missing : ℚ) ≤ num_examples then
    Except.ok (reviseFeatureCounts num_examples weighted_num_examples f)
  else
    Except.error "Total number of examples is less than number of non missing examples"

/-- The reconciliation loop over the remaining features, stopping at the first
violation. -/
def updateFeaturesCounts (num_examples weighted_num_examples : ℚ) :
    List FeatureNameStatisticsCounts → Except String (List FeatureNameStatisticsCounts)
  | [] => Except.ok []
  | f :: rest =>
    match updateFeatureCounts num_examples weighted_num_examples f with
    | Except.error e => Except.error e
    | Except.ok f' =>
      match updateFeaturesCounts num_examples weighted_num_examples rest with
      | Except.error e => Except.error e
      | Except.ok rest' => Except.ok (f' :: rest')

/-- `_update_example_and_missing_count`: read the synthetic entry's counts, remove it
from the visible feature list, revise every remaining feature's missing counts (raising
— producing no output — when a feature's non-missing count exceeds the total), and set
the dataset example count. -/
def update_example_and_missing_count (stats : DatasetFeatureStatisticsCounts) :
    Except String DatasetFeatureStatisticsCounts :=
  match get_feature_stats stats dummyFeaturePath with
  | none => Except.error "feature not found"
  | some dummy =>
    match get_custom_stats dummy numExamplesKey with
    | none => Except.error "custom stat not found"
    | some num_examples =>
      match get_custom_stats dummy weightedNumExamplesKey with
      | none => Except.error "custom stat not found"
      | some weighted_num_examples =>
        match updateFeaturesCounts num_examples weighted_num_examples
          (removeFeature stats.features dummyFeaturePath) with
        | Except.error e => Except.error e
        | Except.ok updated =>
          Except.ok ⟨updated, pyInt num_examples⟩

theorem updateFeaturesCounts_ok {n w : ℚ} :
    ∀ (l : List FeatureNameStatisticsCounts),
      (∀ f ∈ l, (f.stats.common_stats.num_non_missing : ℚ) ≤ n) →
      updateFeaturesCounts n w l = Except.ok (l.map (reviseFeatureCounts n w)) := by
  intro l
  induction l with
  | nil => intro _; rfl
  | cons f rest ih =>
    intro hle
    rw [updateFeaturesCounts, updateFeatureCounts,
      if_pos (hle f (List.mem_cons_self ..)),
      ih fun g hg => hle g (List.mem_cons_of_mem _ hg)]
    rfl

theorem updateFeaturesCounts_error {n w : ℚ} :
    ∀ (l : List FeatureNameStatisticsCounts),
      (∃ f ∈ l, n < (f.stats.common_stats.num_non_missing : ℚ)) →
      ∃ msg, updateFeaturesCounts n w l = Except.error msg := by
  intro l
  induction l with
  | nil => rintro ⟨f, hf, -⟩; simp at hf
  | cons f rest ih =>
    rintro ⟨g, hg, hgt⟩
    by_cases hfv : (f.stats.common_stats.num_non_missing : ℚ) ≤ n
    · have hgr : g ∈ rest := by
        rcases List.mem_cons.mp hg with rfl | h
        · exact absurd hfv (not_le.mpr hgt)
        · exact h
      obtain ⟨msg, hmsg⟩ := ih ⟨g, hgr, hgt⟩
      refine ⟨msg, ?_⟩
      rw [updateFeaturesCounts, updateFeatureCounts, if_pos hfv, hmsg]
    · refine ⟨"Total number of examples is less than number of non missing examples",
        ?_⟩
      rw [updateFeaturesCounts, updateFeatureCounts, if_neg hfv]

/-- Claim C5: example-count reconciliation removes the synthetic Num-Examples entry
from the visible feature list, sets every remaining feature's missing count to the
total minus its non-missing count (and, when the weighted example count is non-zero,
the weighted missing count to the weighted total minus the weighted non-missing count),
and errors out — producing no output — whenever some feature's non-missing count
exceeds the total. -/
theorem claim_C5_example_count_reconciliation
    (stats : DatasetFeatureStatisticsCounts) (dummy : FeatureNameStatisticsCounts)
    (rest : List FeatureNameStatisticsCounts) (n w : ℚ)
    (hfeat : stats.features = dummy :: rest)
    (hdpath : dummy.path = dummyFeaturePath)
    (hrest : ∀ f ∈ rest, f.path ≠ dummyFeaturePath)
    (hn : get_custom_stats dummy numExamplesKey = some n)
    (hw : get_custom_stats dummy weightedNumExamplesKey = some w) :
    ((∀ f ∈ rest, (f.stats.common_stats.num_non_missing : ℚ) ≤ n) →
      update_example_and_missing_count stats =
        Except.ok ⟨rest.map (reviseFeatureCounts n w), pyInt n⟩ ∧
      ∀ f ∈ rest.map (reviseFeatureCounts n w), f.path ≠ dummyFeaturePath) ∧
    ((∃ f ∈ rest, n < (f.stats.common_stats.num_non_missing : ℚ)) →
      ∃ msg, update_example_and_missing_count stats = Except.error msg) ∧
    (∀ f, (reviseFeatureCounts n w f).path = f.path ∧
      (reviseFeatureCounts n w f).stats.common_stats.num_missing =
        pyInt (n - (f.stats.common_stats.num_non_missing : ℚ)) ∧
      (w ≠ 0 →
        (reviseFeatureCounts n w f).stats.common_stats.weighted_common_stats.num_missing
          = w - f.stats.common_stats.weighted_common_stats.num_non_missing) ∧
      (w = 0 →
        (reviseFeatureCounts n w f).stats.common_stats.weighted_common_stats.num_missing
          = f.stats.common_stats.weighted_common_stats.num_missing)) := by
  have hget : get_feature_stats stats dummyFeaturePath = some dummy := by
    rw [get_feature_stats, hfeat]
    exact List.find?_cons_of_pos _ (by simp [hdpath])
  have hremove : removeFeature stats.features dummyFeaturePath = rest := by
    rw [hfeat, removeFeature, if_pos hdpath]
  have hrevise : ∀ f, (reviseFeatureCounts n w f).path = f.path ∧
      (reviseFeatureCounts n w f).stats.common_stats.num_missing =
        pyInt (n - (f.stats.common_stats.num_non_missing : ℚ)) ∧
      (w ≠ 0 →
        (reviseFeatureCounts n w f).stats.common_stats.weighted_common_stats.num_missing
          = w - f.stats.common_stats.weighted_common_stats.num_non_missing) ∧
      (w = 0 →
        (reviseFeatureCounts n w f).stats.common_stats.weighted_common_stats.num_missing
          = f.stats.common_stats.weighted_common_stats.num_missing) := by
    intro f
    have hcs : ∀ cs, (f.stats.withCommonStats cs).common_stats = cs := by
      intro cs
      cases hst : f.stats <;> rfl
    have hpath : (reviseFeatureCounts n w f).path = f.path := rfl
    refine ⟨hpath, ?_, ?_, ?_⟩
    · rw [reviseFeatureCounts]
      show (f.stats.withCommonStats _).common_stats.num_missing = _
      rw [hcs]
      by_cases hwz : w ≠ 0 <;> simp [hwz]
    · intro hwz
      rw [reviseFeatureCounts]
      show (f.stats.withCommonStats _).common_stats.weighted_common_stats.num_missing = _
      rw [hcs]
      simp [hwz]
    · intro hwz
      rw [reviseFeatureCounts]
      show (f.stats.withCommonStats _).common_stats.weighted_common_stats.num_missing = _
      rw [hcs]
      simp [hwz]
  have hstep : update_example_and_missing_count stats =
      match updateFeaturesCounts n w rest with
      | Except.error e => Except.error e
      | Except.ok updated => Except.ok ⟨updated, pyInt n⟩ := by
    simp only [update_example_and_missing_count, hget, hn, hw, hremove]
  refine ⟨?_, ?_, hrevise⟩
  · intro hle
    constructor
    · rw [hstep, updateFeaturesCounts_ok rest hle]
    · intro f hf
      obtain ⟨g, hg, rfl⟩ := List.mem_map.mp hf
      rw [(hrevise g).1]
      exact hrest g hg
  · intro hviol
    obtain ⟨msg, hmsg⟩ := updateFeaturesCounts_error rest hviol
    refine ⟨msg, ?_⟩
    rw [hstep, hmsg]

/-- Witness for C5 at the spec's concrete example: total 10 examples, one feature with
7 non-missing ⇒ reconciliation succeeds, removes the synthetic entry and reports
`int(10 - 7)` missing for the feature. -/
theorem claim_C5_witness :
    update_example_and_missing_count
        ⟨[⟨dummyFeaturePath, FeatureStatsOneof.stringStats ⟨0, 0, ⟨0, 0⟩⟩,
            [(numExamplesKey, 10), (weightedNumExamplesKey, 0)]⟩,
          ⟨⟨["F"]⟩, FeatureStatsOneof.stringStats ⟨7, 0, ⟨0, 0⟩⟩, []⟩], 0⟩ =
      Except.ok
        ⟨[⟨⟨["F"]⟩, FeatureStatsOneof.stringStats ⟨7, 0, ⟨0, 0⟩⟩, []⟩].map
          (reviseFeatureCounts 10 0), pyInt 10⟩ ∧
    (∀ f ∈ [⟨⟨["F"]⟩, FeatureStatsOneof.stringStats ⟨7, 0, ⟨0, 0⟩⟩,
        ([] : List (String × ℚ))⟩].map (reviseFeatureCounts 10 0),
      f.path ≠ dummyFeaturePath) :=
  (claim_C5_example_count_reconciliation
    ⟨[⟨dummyFeaturePath, FeatureStatsOneof.stringStats ⟨0, 0, ⟨0, 0⟩⟩,
        [(numExamplesKey, 10), (weightedNumExamplesKey, 0)]⟩,
      ⟨⟨["F"]⟩, FeatureStatsOneof.stringStats ⟨7, 0, ⟨0, 0⟩⟩, []⟩], 0⟩
    ⟨dummyFeaturePath, FeatureStatsOneof.stringStats ⟨0, 0, ⟨0, 0⟩⟩,
      [(numExamplesKey, 10), (weightedNumExamplesKey, 0)]⟩
    [⟨⟨["F"]⟩, FeatureStatsOneof.stringStats ⟨7, 0, ⟨0, 0⟩⟩, []⟩] 10 0
    rfl rfl (by decide) (by decide) (by decide)).1 (by decide)

end TFDV
